import Mathlib

/-!
Verification of the schedule-string parser `parse_course_string` from
`src/crawler/course_crawler.py` of the ut-course-simulator repository.

Python strings are modelled as `List Char`;  the regular expressions used by
the source are unfolded into explicit scanning functions whose semantics match
the Python `re` engine on the patterns actually used (leftmost match, lazy /
greedy quantifiers, `.` not matching a newline).  Python's `str.strip`,
`str.replace`, `str.split`, `"".join`, `sorted(set(...))` and
`dict.fromkeys` are modelled by `trim`, `replaceAll`, `splitOnPred`,
`joinSep`, `sortDedup` and `dedupFirst` respectively.  Whitespace and digits
are modelled by their ASCII fragments, which is what the scraped data
contains.
-/

namespace CourseCrawler

abbrev Str := List Char

/-- ASCII fragment of Python's whitespace class (`str.strip()` / `\s`). -/
def isSpace (c : Char) : Bool :=
  c = ' ' || c = '\t' || c = '\n' || c = '\r' || c = '\x0b' || c = '\x0c'

/-- Decimal digit, as matched by `\d` on the scraped data. -/
def isDigitC (c : Char) : Bool := '0' ≤ c && c ≤ '9'

/-- `s.strip()`: drop whitespace from both ends. -/
def trim (s : Str) : Str :=
  List.rdropWhile isSpace (s.dropWhile isSpace)

/-- `s.strip(chars)` for an arbitrary character class `q`. -/
def stripChars (q : Char → Bool) (s : Str) : Str :=
  List.rdropWhile q (s.dropWhile q)

/-- `pat in s` (Python substring containment). -/
def containsSub (s pat : Str) : Bool :=
  match s with
  | [] => pat.isEmpty
  | _ :: rest => pat.isPrefixOf s || containsSub rest pat

/-- Fuel-indexed scanner behind `replaceAll`;  the fuel bounds the input
length, so the recursion is structural and therefore computes by reduction. -/
def replaceAllF (pat rep : Str) : Nat → Str → Str
  | _, [] => []
  | 0, s => s
  | n + 1, c :: rest =>
    if pat.isPrefixOf (c :: rest) then
      rep ++ replaceAllF pat rep n (rest.drop (pat.length - 1))
    else
      c :: replaceAllF pat rep n rest

/-- `s.replace(pat, rep)`: replace every (leftmost, non-overlapping)
occurrence of `pat` by `rep`. -/
def replaceAll (pat rep : Str) (s : Str) : Str := replaceAllF pat rep s.length s

theorem replaceAllF_fuel {pat rep : Str} :
    ∀ n m (s : Str), s.length ≤ n → s.length ≤ m →
      replaceAllF pat rep n s = replaceAllF pat rep m s := by
  intro n
  induction n with
  | zero =>
    intro m s hn _
    rw [List.length_eq_zero.1 (Nat.le_zero.1 hn)]
    rcases m with _ | m' <;> rfl
  | succ n ih =>
    intro m s hn hm
    rcases s with _ | ⟨c, rest⟩
    · rcases m with _ | m' <;> rfl
    · rcases m with _ | m'
      · simp at hm
      · show (if pat.isPrefixOf (c :: rest) then
            rep ++ replaceAllF pat rep n (rest.drop (pat.length - 1))
          else c :: replaceAllF pat rep n rest) =
          (if pat.isPrefixOf (c :: rest) then
            rep ++ replaceAllF pat rep m' (rest.drop (pat.length - 1))
          else c :: replaceAllF pat rep m' rest)
        simp only [List.length_cons] at hn hm
        by_cases hp : pat.isPrefixOf (c :: rest) = true
        · rw [if_pos hp, if_pos hp]
          have hd := List.length_drop (pat.length - 1) rest
          rw [ih m' _ (by omega) (by omega)]
        · rw [if_neg (by simpa using hp), if_neg (by simpa using hp)]
          rw [ih m' rest (by omega) (by omega)]

/-- `re.split` / `str.split` on a one-character separator class:
the list of chunks between separator characters. -/
def splitOnPred (p : Char → Bool) : Str → List Str
  | [] => [[]]
  | c :: rest =>
    match splitOnPred p rest with
    | [] => [[c]]
    | h :: t => if p c then [] :: h :: t else (c :: h) :: t

/-- `sep.join l`. -/
def joinSep (sep : Str) : List Str → Str
  | [] => []
  | [x] => x
  | x :: y :: t => x ++ sep ++ joinSep sep (y :: t)

/-- Join a list of lines with newlines (inverse of splitting on `'\n'`). -/
def joinNl : List Str → Str
  | [] => []
  | [x] => x
  | x :: y :: t => x ++ '\n' :: joinNl (y :: t)

/-- `list(dict.fromkeys(l))`: deduplicate keeping the first occurrence. -/
def dedupFirstAux : List Str → List Str → List Str
  | _, [] => []
  | seen, x :: xs =>
    if x ∈ seen then dedupFirstAux seen xs else x :: dedupFirstAux (x :: seen) xs

def dedupFirst (l : List Str) : List Str := dedupFirstAux [] l

/-- Python string comparison: lexicographic on code points. -/
def lexLe : Str → Str → Bool
  | [], _ => true
  | _ :: _, [] => false
  | a :: as, b :: bs => if a < b then true else if b < a then false else lexLe as bs

def LexLe (a b : Str) : Prop := lexLe a b = true

instance : DecidableRel LexLe := fun a b => by
  unfold LexLe; infer_instance

/-- `sorted(set(l))`: the sorted list of the distinct elements of `l`. -/
def sortDedup (l : List Str) : List Str := List.insertionSort LexLe l.dedup

/-! ### The markers and sentinels used by the parser -/

def oddMarker : Str := ['(', '單', '週', ')']
def evenMarker : Str := ['(', '雙', '週', ')']
def timeUndecided : Str := ['時', '間', '未', '定']
def roomTBD : Str := ['教', '室', '未', '定']
def noneSentinel : Str := ['無']

inductive WeekPatternEnum where
  | EVERY_WEEK
  | ODD_WEEKS
  | EVEN_WEEKS
deriving DecidableEq, Repr

/-- Step 2 of the parser: week-pattern detection and marker removal
(`course_crawler.py` lines 266-272). -/
def weekExtract (s : Str) : WeekPatternEnum × Str :=
  if containsSub s oddMarker then
    (WeekPatternEnum.ODD_WEEKS, trim (replaceAll oddMarker [' '] s))
  else if containsSub s evenMarker then
    (WeekPatternEnum.EVEN_WEEKS, trim (replaceAll evenMarker [' '] s))
  else
    (WeekPatternEnum.EVERY_WEEK, s)

/-- The string `clean_string` after line 272 of the source. -/
def cleanOf (raw : Str) : Str := (weekExtract (trim raw)).2

def weekOf (raw : Str) : WeekPatternEnum := (weekExtract (trim raw)).1

/-! ### The time-undecided branch (lines 274-287) -/

/-- Character class `[/、\s]` of the split pattern before `時間未定`. -/
def isSep1 (c : Char) : Bool := c = '/' || c = '、' || isSpace c

/-- Does `[/、\s]*時間未定` match at the front of `s`? -/
def frontMatchTU : Str → Bool
  | [] => false
  | c :: rest => timeUndecided.isPrefixOf (c :: rest) || (isSep1 c && frontMatchTU rest)

/-- `re.split(r"[/、\s]*時間未定", s, 1)[0]`: the part of `s` before the
leftmost match of the pattern (all of `s` if there is none). -/
def tuSplitBefore : Str → Str
  | [] => []
  | c :: rest => if frontMatchTU (c :: rest) then [] else c :: tuSplitBefore rest

/-- Character class of `strip("、/, ")`. -/
def isSep2 (c : Char) : Bool := c = '、' || c = '/' || c = ',' || c = ' '

/-- Character class `[、,]` splitting the teacher-name segment. -/
def isSep3 (c : Char) : Bool := c = '、' || c = ','

/-- `cleaned_teacher_names` of line 276: the split part before the marker,
stripped of `"、/, "`. -/
def tuSeg (clean : Str) : Str := stripChars isSep2 (tuSplitBefore clean)

/-- The list comprehension of lines 278-280 before the `or` fallback. -/
def tuNames (clean : Str) : List Str :=
  ((splitOnPred isSep3 (tuSeg clean)).map trim).filter (fun t => ¬ t.isEmpty)

/-- Teacher names extracted in the time-undecided branch (lines 275-280). -/
def tuTeachers (clean : Str) : List Str :=
  if (tuNames clean).isEmpty then [noneSentinel] else tuNames clean

def isOpenP (c : Char) : Bool := c = '(' || c = '（'
def isCloseP (c : Char) : Bool := c = ')' || c = '）'

/-- The lazy `(.*?)` before a closing parenthesis: content up to the first
closing parenthesis, failing on a newline (`.` does not match `'\n'`). -/
def scanCloseAny (s : Str) : Option Str :=
  match s with
  | [] => none
  | c :: rest =>
    if isCloseP c then some []
    else if c = '\n' then none
    else (scanCloseAny rest).map (c :: ·)

/-- `re.search(r"[(（](.*?)[)）]", s)`: group 1 of the leftmost match. -/
def firstParenGroup : Str → Option Str
  | [] => none
  | c :: rest =>
    if isOpenP c then
      match scanCloseAny rest with
      | some content => some content
      | none => firstParenGroup rest
    else firstParenGroup rest

/-- Classroom of the time-undecided branch (lines 282-286). -/
def tuLocation (clean : Str) : Str :=
  match firstParenGroup clean with
  | some g => trim g
  | none => roomTBD

/-! ### The timed-entry branch (lines 289-328) -/

/-- Does `\s*\(` match at the front of `s`?  (Greedy `\s*` then a literal
`'('`: skip all whitespace, the next character must be `'('`.) -/
def wsThenOpen (s : Str) : Bool :=
  match s.dropWhile isSpace with
  | c :: _ => c = '('
  | [] => false

/-- Offset search used by `re.match(r"(.+?)\s*\(", line)`: the least offset
at which `\s*\(` matches. -/
def tpSearch : Str → Option Nat
  | [] => none
  | c :: rest => if wsThenOpen (c :: rest) then some 0 else (tpSearch rest).map (· + 1)

/-- `re.match(r"(.+?)\s*\(", line).end(1)`: the length of the lazy group 1,
which must contain at least one character. -/
def teacherPrefixEnd (line : Str) : Option Nat :=
  match line with
  | [] => none
  | _ :: rest => (tpSearch rest).map (· + 1)

/-- `re.sub(r"\s+\d+$", "", name)`: remove a trailing run of whitespace
followed by digits (a footnote index glued to the name). -/
def stripFootnote (s : Str) : Str :=
  if ¬ (s.reverse.takeWhile isDigitC).isEmpty ∧
      ¬ ((s.reverse.dropWhile isDigitC).takeWhile isSpace).isEmpty then
    ((s.reverse.dropWhile isDigitC).dropWhile isSpace).reverse
  else s

def dayGlyph (c : Char) : Bool :=
  c = '一' || c = '二' || c = '三' || c = '四' || c = '五' || c = '六' || c = '日'

/-- `DAY_OF_WEEK_MAP.get` (lines 33-41). -/
def dayMap (c : Char) : Option Nat :=
  if c = '一' then some 1
  else if c = '二' then some 2
  else if c = '三' then some 3
  else if c = '四' then some 4
  else if c = '五' then some 5
  else if c = '六' then some 6
  else if c = '日' then some 7
  else none

/-- `int` of a digit string. -/
def digitsToNat (s : Str) : Nat :=
  s.foldl (fun n c => n * 10 + (c.toNat - '0'.toNat)) 0

structure TimeMatch where
  day : Char
  startP : Nat
  endPOpt : Option Nat
  loc : Str
deriving DecidableEq, Repr

/-- Lazy `(.*?)\)`: content up to the first ASCII `')'`, and the remainder
after that parenthesis; fails on a newline or at the end of input. -/
def scanCloseAscii : Str → Option (Str × Str)
  | [] => none
  | c :: rest =>
    if c = ')' then some ([], rest)
    else if c = '\n' then none
    else (scanCloseAscii rest).map (fun p => (c :: p.1, p.2))

/-- The part of the day/period/room pattern after `\(([一二三四五六日])\)`:
`\s*(\d+)(?:-(\d+))?\((.*?)\)` matched at the front of `rest`. -/
def matchTimeTail (d : Char) (ds : Str) (r4 : Str) : Option (TimeMatch × Str) :=
  if (r4.takeWhile isDigitC).isEmpty then none
  else
    match r4.dropWhile isDigitC with
    | c :: r5 =>
      if c = '(' then
        (scanCloseAscii r5).map
          (fun p => (⟨d, digitsToNat ds, some (digitsToNat (r4.takeWhile isDigitC)), p.1⟩, p.2))
      else none
    | [] => none

def matchTimeMid (d : Char) (ds : Str) (r3 : Str) : Option (TimeMatch × Str) :=
  if ds.isEmpty then none
  else
    match r3 with
    | c :: r5 =>
      if c = '(' then
        (scanCloseAscii r5).map (fun p => (⟨d, digitsToNat ds, none, p.1⟩, p.2))
      else if c = '-' then matchTimeTail d ds r5
      else none
    | [] => none

def matchTimeBody (d : Char) (rest : Str) : Option (TimeMatch × Str) :=
  matchTimeMid d ((rest.dropWhile isSpace).takeWhile isDigitC)
    ((rest.dropWhile isSpace).dropWhile isDigitC)

/-- One match of `\(([一二三四五六日])\)\s*(\d+)(?:-(\d+))?\((.*?)\)` at the
front of `s`, together with the remainder after the match. -/
def matchTimeAt : Str → Option (TimeMatch × Str)
  | o :: d :: cp :: rest =>
    if o = '(' ∧ cp = ')' ∧ dayGlyph d then matchTimeBody d rest else none
  | _ => none

theorem scanCloseAscii_length {s : Str} {p : Str × Str}
    (h : scanCloseAscii s = some p) : p.2.length < s.length := by
  induction s generalizing p with
  | nil => simp [scanCloseAscii] at h
  | cons c rest ih =>
    simp only [scanCloseAscii] at h
    split at h
    · cases h; simp
    · split at h
      · exact absurd h (by simp)
      · rcases Option.map_eq_some'.1 h with ⟨q, hq, rfl⟩
        have := ih hq
        simpa using Nat.lt_trans this (by simp)

theorem matchTimeTail_length {d : Char} {ds : Str} {r4 : Str} {m : TimeMatch} {t : Str}
    (h : matchTimeTail d ds r4 = some (m, t)) : t.length ≤ r4.length := by
  unfold matchTimeTail at h
  have h4 : (r4.dropWhile isDigitC).length ≤ r4.length :=
    (List.dropWhile_sublist _).length_le
  split at h
  · exact absurd h (by simp)
  · split at h
    · next c r5 heq =>
      split at h
      · rcases Option.map_eq_some'.1 h with ⟨q, hq, hqe⟩
        have hlt := scanCloseAscii_length hq
        have ht : t = q.2 := by cases hqe; rfl
        rw [heq] at h4
        simp only [List.length_cons] at h4
        rw [ht]
        omega
      · exact absurd h (by simp)
    · exact absurd h (by simp)

theorem matchTimeMid_length {d : Char} {ds : Str} {r3 : Str} {m : TimeMatch} {t : Str}
    (h : matchTimeMid d ds r3 = some (m, t)) : t.length ≤ r3.length := by
  unfold matchTimeMid at h
  split at h
  · exact absurd h (by simp)
  · split at h
    · next c r5 =>
      split at h
      · rcases Option.map_eq_some'.1 h with ⟨q, hq, hqe⟩
        have hlt := scanCloseAscii_length hq
        have ht : t = q.2 := by cases hqe; rfl
        rw [ht]
        simp only [List.length_cons]
        omega
      · split at h
        · have := matchTimeTail_length h
          simp only [List.length_cons]
          omega
        · exact absurd h (by simp)
    · exact absurd h (by simp)

theorem matchTimeBody_length {d : Char} {rest : Str} {m : TimeMatch} {t : Str}
    (h : matchTimeBody d rest = some (m, t)) : t.length ≤ rest.length := by
  unfold matchTimeBody at h
  have h2 : (rest.dropWhile isSpace).length ≤ rest.length :=
    (List.dropWhile_sublist _).length_le
  have h3 : ((rest.dropWhile isSpace).dropWhile isDigitC).length ≤
      (rest.dropWhile isSpace).length := (List.dropWhile_sublist _).length_le
  have := matchTimeMid_length h
  omega

theorem matchTimeAt_length {s : Str} {m : TimeMatch} {t : Str}
    (h : matchTimeAt s = some (m, t)) : t.length < s.length := by
  unfold matchTimeAt at h
  split at h
  · next o d cp rest =>
    split at h
    · have := matchTimeBody_length h
      simp only [List.length_cons]
      omega
    · exact absurd h (by simp)
  · exact absurd h (by simp)

/-- Fuel-indexed scanner behind `findTimeMatches`. -/
def findTimeMatchesF : Nat → Str → List TimeMatch
  | 0, _ => []
  | n + 1, s =>
    match matchTimeAt s with
    | some (m, t) => m :: findTimeMatchesF n t
    | none =>
      match s with
      | [] => []
      | _ :: rest => findTimeMatchesF n rest

/-- `pattern.findall(s)`: all non-overlapping matches, scanning left to
right. -/
def findTimeMatches (s : Str) : List TimeMatch := findTimeMatchesF s.length s

theorem findTimeMatchesF_succ (n : Nat) (s : Str) :
    findTimeMatchesF (n + 1) s =
      match matchTimeAt s with
      | some (m, t) => m :: findTimeMatchesF n t
      | none =>
        match s with
        | [] => []
        | _ :: rest => findTimeMatchesF n rest := rfl

theorem findTimeMatchesF_fuel :
    ∀ n m (s : Str), s.length ≤ n → s.length ≤ m →
      findTimeMatchesF n s = findTimeMatchesF m s := by
  intro n
  induction n with
  | zero =>
    intro m s hn _
    rw [List.length_eq_zero.1 (Nat.le_zero.1 hn)]
    rcases m with _ | m' <;> rfl
  | succ n ih =>
    intro m s hn hm
    rcases m with _ | m'
    · rw [List.length_eq_zero.1 (Nat.le_zero.1 hm)]
      rfl
    · rw [findTimeMatchesF_succ, findTimeMatchesF_succ]
      rcases hma : matchTimeAt s with _ | ⟨m0, t⟩
      · rcases s with _ | ⟨c, rest⟩
        · rfl
        · simp only [List.length_cons] at hn hm
          exact ih m' rest (by omega) (by omega)
      · have := matchTimeAt_length hma
        exact congrArg (m0 :: ·) (ih m' t (by omega) (by omega))

/-! ### Per-line accumulation (lines 289-321) -/

/-- The mutable accumulator of the timed-entry loop:  `all_teachers`,
`all_locations` (as an append list; only its set of members is ever used),
`min_start_period` / `max_end_period` (`none` models the `±inf` seeds) and
the first-seen `day_of_week`. -/
structure Acc where
  teachers : List Str
  locations : List Str
  minStart : Option Nat
  maxEnd : Option Nat
  day : Option Nat
deriving DecidableEq, Repr

def initAcc : Acc := ⟨[], [], none, none, none⟩

/-- The effective end period of a match: the second number of the range, or
the start period when no dash range was given (line 317). -/
def matchEnd (m : TimeMatch) : Nat :=
  match m.endPOpt with
  | some e => e
  | none => m.startP

/-- The body of `for match in matches` (lines 310-321). -/
def stepMatch (a : Acc) (m : TimeMatch) : Acc :=
  { teachers := a.teachers
    locations := a.locations ++ [trim m.loc]
    minStart := some (match a.minStart with
      | none => m.startP
      | some v => min v m.startP)
    maxEnd := some (match a.maxEnd with
      | none => matchEnd m
      | some v => max v (matchEnd m))
    day := match a.day with
      | none => dayMap m.day
      | some v => some v }

/-- The day/period/room matches contributed by one line. -/
def lineMatches (line : Str) : List TimeMatch :=
  match teacherPrefixEnd line with
  | none => []
  | some e => findTimeMatches (trim (line.drop e))

/-- The body of `for line in lines` (lines 295-321). -/
def processLine (a : Acc) (line : Str) : Acc :=
  match teacherPrefixEnd line with
  | none =>
    if ¬ (trim line).isEmpty ∧ ¬ a.teachers.isEmpty then
      { a with teachers := a.teachers ++ [trim line] }
    else a
  | some e =>
    (findTimeMatches (trim (line.drop e))).foldl stepMatch
      { a with teachers := a.teachers ++ [trim (stripFootnote (line.take e))] }

def isNl (c : Char) : Bool := c = '\n'

/-- `[line.strip() for line in s.split(p) if line.strip()]`. -/
def linesP (p : Char → Bool) (s : Str) : List Str :=
  ((splitOnPred p s).map trim).filter (fun l => ¬ l.isEmpty)

/-! ### The whole parser (lines 261-337) -/

structure ParseResult where
  teachers : List Str
  dayOfWeek : Option Nat
  startPeriod : Option Nat
  endPeriod : Option Nat
  location : Str
  weekPattern : WeekPatternEnum
deriving DecidableEq, Repr

def sepDot : Str := ['、']

/-- The accumulator after the `for line in lines` loop. -/
def accFold (clean : Str) : Acc :=
  (linesP isNl clean).foldl processLine initAcc

/-- The timed-entry branch of the parser (lines 289-337), applied to the
cleaned string. -/
def processTimed (wp : WeekPatternEnum) (clean : Str) : ParseResult :=
  if (accFold clean).teachers.isEmpty ∧ (accFold clean).locations.isEmpty ∧
      ¬ clean.isEmpty then
    { teachers := [clean]
      dayOfWeek := none
      startPeriod := none
      endPeriod := none
      location := []
      weekPattern := wp }
  else
    { teachers := dedupFirst (accFold clean).teachers
      dayOfWeek := (accFold clean).day
      startPeriod := (accFold clean).minStart
      endPeriod := (accFold clean).maxEnd
      location := joinSep sepDot (sortDedup (accFold clean).locations)
      weekPattern := wp }

/-- `parse_course_string` (`course_crawler.py` lines 261-337): the returned
tuple `(teachers, day_of_week, start_period, end_period, location,
week_pattern)`. -/
def parse_course_string (raw : Str) : ParseResult :=
  if containsSub (cleanOf raw) timeUndecided then
    { teachers := tuTeachers (cleanOf raw)
      dayOfWeek := none
      startPeriod := none
      endPeriod := none
      location := tuLocation (cleanOf raw)
      weekPattern := weekOf raw }
  else
    processTimed (weekOf raw) (cleanOf raw)

/-- All day/period/room matches of the timed-entry branch, across all lines
in raw-text order. -/
def cellMatches (raw : Str) : List TimeMatch :=
  (linesP isNl (cleanOf raw)).flatMap lineMatches

/-! ## Basic facts about the string operations -/

theorem containsSub_infix_iff {s pat : Str} : containsSub s pat = true ↔ pat <:+: s := by
  induction s with
  | nil =>
    simp only [containsSub, List.isEmpty_iff, List.infix_nil]
  | cons c r ih =>
    simp only [containsSub, Bool.or_eq_true, List.isPrefixOf_iff_prefix, ih,
      List.infix_cons_iff]

theorem head?_dropWhile_false {p : Char → Bool} {l : List Char} {c : Char}
    (h : (l.dropWhile p).head? = some c) : p c = false := by
  have hx := List.head?_dropWhile_not p l
  rw [h] at hx
  exact hx

theorem prefix_head? {l₁ l₂ : List Char} (h : l₁ <+: l₂) (hne : l₁ ≠ []) :
    l₂.head? = l₁.head? := by
  obtain ⟨t, rfl⟩ := h
  cases l₁ with
  | nil => exact absurd rfl hne
  | cons a l => rfl

theorem dropWhile_eq_self_of_head {p : Char → Bool} {l : List Char}
    (h : ∀ c, l.head? = some c → p c = false) : l.dropWhile p = l := by
  cases l with
  | nil => rfl
  | cons c t =>
    rw [List.dropWhile_cons_of_neg]
    simp [h c rfl]

theorem trim_infix_self (s : Str) : trim s <:+: s :=
  (List.rdropWhile_prefix _ _).isInfix.trans (List.dropWhile_suffix _).isInfix

theorem trim_eq_nil_iff {s : Str} : trim s = [] ↔ ∀ c ∈ s, isSpace c = true := by
  unfold trim
  rw [List.rdropWhile_eq_nil_iff]
  constructor
  · intro h c hc
    rw [← List.takeWhile_append_dropWhile isSpace s] at hc
    rcases List.mem_append.1 hc with hc | hc
    · exact List.mem_takeWhile_imp hc
    · exact h c hc
  · intro h c hc
    exact h c ((List.dropWhile_sublist _).subset hc)

theorem trim_head?_not_ws {s : Str} {c : Char} (h : (trim s).head? = some c) :
    isSpace c = false := by
  have hne : trim s ≠ [] := by
    intro he; rw [he] at h; exact absurd h (by simp)
  have hpre : trim s <+: s.dropWhile isSpace := List.rdropWhile_prefix _ _
  have := prefix_head? hpre hne
  exact head?_dropWhile_false (this.trans h)

theorem trim_getLast?_not_ws {s : Str} {c : Char} (h : (trim s).getLast? = some c) :
    isSpace c = false := by
  have hne : trim s ≠ [] := by
    intro he; rw [he] at h; exact absurd h (by simp)
  have hlast := List.rdropWhile_last_not isSpace (s.dropWhile isSpace) hne
  rw [List.getLast?_eq_getLast _ hne] at h
  cases h
  exact Bool.not_eq_true _ ▸ (by exact fun hh => hlast (by exact hh))

theorem trim_idem (s : Str) : trim (trim s) = trim s := by
  have hh : List.dropWhile isSpace (trim s) = trim s :=
    dropWhile_eq_self_of_head (fun c hc => trim_head?_not_ws hc)
  show List.rdropWhile isSpace (List.dropWhile isSpace (trim s)) = trim s
  rw [hh]
  show List.rdropWhile isSpace (List.rdropWhile isSpace (List.dropWhile isSpace s)) = _
  rw [List.rdropWhile_idempotent]
  rfl

theorem trim_cons_ws {c : Char} {s : Str} (h : isSpace c = true) :
    trim (c :: s) = trim s := by
  unfold trim
  rw [List.dropWhile_cons_of_pos h]

theorem trim_snoc_ws {c : Char} {s : Str} (h : isSpace c = true) :
    trim (s ++ [c]) = trim s := by
  unfold trim
  rcases he : s.dropWhile isSpace with _ | ⟨d, t⟩
  · have h2 : (s ++ [c]).dropWhile isSpace = [] := by
      rw [List.dropWhile_append, he]
      simp [List.dropWhile_cons_of_pos h]
    rw [h2]
  · have h2 : (s ++ [c]).dropWhile isSpace = (d :: t) ++ [c] := by
      rw [List.dropWhile_append, he]
      simp
    rw [h2]
    exact List.rdropWhile_concat_pos _ _ _ h

theorem rdropWhile_append_rtakeWhile (p : Char → Bool) (l : List Char) :
    List.rdropWhile p l ++ List.rtakeWhile p l = l := by
  unfold List.rdropWhile List.rtakeWhile
  rw [← List.reverse_append, List.takeWhile_append_dropWhile, List.reverse_reverse]

/-! ## Facts about splitting into chunks and lines -/

theorem splitOnPred_ne_nil {p : Char → Bool} {s : Str} : splitOnPred p s ≠ [] := by
  cases s with
  | nil => simp [splitOnPred]
  | cons c rest =>
    unfold splitOnPred
    split
    · simp
    · split <;> simp

theorem splitOnPred_cons_eq {p : Char → Bool} {c : Char} {rest : Str} {h : Str}
    {t : List Str} (hr : splitOnPred p rest = h :: t) :
    splitOnPred p (c :: rest) =
      if p c = true then [] :: h :: t else (c :: h) :: t := by
  unfold splitOnPred
  rw [hr]

theorem splitOnPred_append_sep {p : Char → Bool} {c : Char} (hc : p c = true)
    (a b : Str) : splitOnPred p (a ++ c :: b) = splitOnPred p a ++ splitOnPred p b := by
  induction a with
  | nil =>
    rw [List.nil_append]
    rcases hs : splitOnPred p b with _ | ⟨h, t⟩
    · exact absurd hs splitOnPred_ne_nil
    · rw [splitOnPred_cons_eq hs]
      simp [splitOnPred, hc]
  | cons d a ih =>
    rw [List.cons_append]
    rcases hj : splitOnPred p (a ++ c :: b) with _ | ⟨h, t⟩
    · exact absurd hj splitOnPred_ne_nil
    · rcases ha : splitOnPred p a with _ | ⟨h2, t2⟩
      · exact absurd ha splitOnPred_ne_nil
      · rw [splitOnPred_cons_eq hj, splitOnPred_cons_eq ha]
        rw [ih, ha] at hj
        simp only [List.cons_append] at hj
        cases hj
        by_cases hd : p d = true <;> simp [hd]

theorem splitOnPred_no_sep {p : Char → Bool} {l : Str}
    (h : ∀ c ∈ l, p c = false) : splitOnPred p l = [l] := by
  induction l with
  | nil => rfl
  | cons c rest ih =>
    unfold splitOnPred
    rw [ih (fun d hd => h d (List.mem_cons_of_mem _ hd))]
    simp [h c (List.mem_cons_self _ _)]

/-- Apply `f` to the last element of a list. -/
def modLast (f : Str → Str) : List Str → List Str
  | [] => []
  | [x] => [f x]
  | x :: y :: t => x :: modLast f (y :: t)

theorem splitOnPred_snoc_of_neg {p : Char → Bool} {c : Char} (hc : p c = false)
    (a : Str) : splitOnPred p (a ++ [c]) = modLast (· ++ [c]) (splitOnPred p a) := by
  induction a with
  | nil => simp [splitOnPred, modLast, hc]
  | cons d a ih =>
    rw [List.cons_append]
    unfold splitOnPred
    rw [ih]
    rcases ha : splitOnPred p a with _ | ⟨h, t⟩
    · exact absurd ha splitOnPred_ne_nil
    · rcases ht : t with _ | ⟨h2, t2⟩
      · by_cases hd : p d = true <;> simp [modLast, hd]
      · by_cases hd : p d = true <;> simp [modLast, hd]

/-- `linesP p [] = []`. -/
theorem linesP_nil {p : Char → Bool} : linesP p [] = [] := by
  simp [linesP, splitOnPred, trim]

theorem linesP_cons_sep {p : Char → Bool} {c : Char} (hc : p c = true) (r : Str) :
    linesP p (c :: r) = linesP p r := by
  unfold linesP
  rcases hr : splitOnPred p r with _ | ⟨h, t⟩
  · exact absurd hr splitOnPred_ne_nil
  · rw [splitOnPred_cons_eq hr]
    simp [hc, trim]

theorem linesP_cons_ws {p : Char → Bool} {c : Char} (hc : p c = false)
    (hw : isSpace c = true) (r : Str) : linesP p (c :: r) = linesP p r := by
  unfold linesP
  rcases hr : splitOnPred p r with _ | ⟨h, t⟩
  · exact absurd hr splitOnPred_ne_nil
  · rw [splitOnPred_cons_eq hr]
    simp only [hc, Bool.false_eq_true, if_false, List.map_cons, trim_cons_ws hw]

theorem linesP_snoc_sep {p : Char → Bool} {c : Char} (hc : p c = true) (a : Str) :
    linesP p (a ++ [c]) = linesP p a := by
  unfold linesP
  have : a ++ [c] = a ++ c :: [] := rfl
  rw [this, splitOnPred_append_sep hc]
  simp [splitOnPred, trim]

theorem filter_map_trim_modLast {c : Char} (hw : isSpace c = true) (L : List Str) :
    ((modLast (· ++ [c]) L).map trim).filter (fun l => ¬ l.isEmpty) =
      (L.map trim).filter (fun l => ¬ l.isEmpty) := by
  induction L with
  | nil => rfl
  | cons x t ih =>
    rcases t with _ | ⟨y, t2⟩
    · simp [modLast, trim_snoc_ws hw]
    · simp only [modLast, List.map_cons, List.filter_cons] at ih ⊢
      rw [ih]

theorem linesP_snoc_ws {p : Char → Bool} {c : Char} (hc : p c = false)
    (hw : isSpace c = true) (a : Str) : linesP p (a ++ [c]) = linesP p a := by
  unfold linesP
  rw [splitOnPred_snoc_of_neg hc, filter_map_trim_modLast hw]

theorem linesP_prefix_ws {p : Char → Bool} {w : Str}
    (hw : ∀ c ∈ w, isSpace c = true) (x : Str) : linesP p (w ++ x) = linesP p x := by
  induction w with
  | nil => rfl
  | cons c w' ih =>
    rw [List.cons_append]
    have hc := hw c (List.mem_cons_self _ _)
    have ih' := ih (fun d hd => hw d (List.mem_cons_of_mem _ hd))
    by_cases hp : p c = true
    · rw [linesP_cons_sep hp, ih']
    · rw [linesP_cons_ws (Bool.eq_false_iff.2 hp) hc, ih']

theorem linesP_ws_suffix {p : Char → Bool} {w : Str}
    (hw : ∀ c ∈ w, isSpace c = true) (x : Str) : linesP p (x ++ w) = linesP p x := by
  induction w using List.reverseRecOn with
  | nil => rw [List.append_nil]
  | append_singleton w' c ih =>
    have hc := hw c (by simp)
    have ih' := ih (fun d hd => hw d (by simp [hd]))
    rw [← List.append_assoc]
    by_cases hp : p c = true
    · rw [linesP_snoc_sep hp, ih']
    · rw [linesP_snoc_ws (Bool.eq_false_iff.2 hp) hc, ih']

/-! ## Facts about replaceAll -/

theorem replaceAll_nil {pat rep : Str} : replaceAll pat rep [] = [] := rfl

theorem replaceAll_cons_pos {pat rep : Str} {c : Char} {rest : Str}
    (h : pat.isPrefixOf (c :: rest) = true) :
    replaceAll pat rep (c :: rest) =
      rep ++ replaceAll pat rep (rest.drop (pat.length - 1)) := by
  show replaceAllF pat rep (rest.length + 1) (c :: rest) = _
  show (if pat.isPrefixOf (c :: rest) then
      rep ++ replaceAllF pat rep rest.length (rest.drop (pat.length - 1))
    else c :: replaceAllF pat rep rest.length rest) = _
  rw [if_pos h]
  unfold replaceAll
  have hd := List.length_drop (pat.length - 1) rest
  rw [replaceAllF_fuel rest.length (rest.drop (pat.length - 1)).length _ (by omega) le_rfl]

theorem replaceAll_cons_neg {pat rep : Str} {c : Char} {rest : Str}
    (h : pat.isPrefixOf (c :: rest) = false) :
    replaceAll pat rep (c :: rest) = c :: replaceAll pat rep rest := by
  show replaceAllF pat rep (rest.length + 1) (c :: rest) = _
  show (if pat.isPrefixOf (c :: rest) then
      rep ++ replaceAllF pat rep rest.length (rest.drop (pat.length - 1))
    else c :: replaceAllF pat rep rest.length rest) = _
  rw [if_neg (by simp [h])]
  rfl

theorem prefix_cut {pat a b : Str} {x : Char} (hx : x ∉ pat) :
    pat <+: (a ++ x :: b) → pat <+: a := by
  induction a generalizing pat with
  | nil =>
    intro h
    rcases List.prefix_cons_iff.1 h with he | ⟨t, he, _⟩
    · exact he ▸ List.nil_prefix
    · exact absurd (he ▸ List.mem_cons_self x t) hx
  | cons c a' ih =>
    intro h
    rcases pat with _ | ⟨p, pt⟩
    · exact List.nil_prefix
    · rw [List.cons_append] at h
      rcases (List.cons_prefix_cons).1 h with ⟨rfl, ht⟩
      have hx' : x ∉ pt := fun hm => hx (List.mem_cons_of_mem _ hm)
      exact (List.cons_prefix_cons).2 ⟨rfl, ih hx' ht⟩

theorem prefix_cut_class {q : Char → Bool} {pat a w : Str}
    (hq : ∀ c ∈ pat, q c = false) (hw : ∀ c ∈ w, q c = true) :
    pat <+: (a ++ w) → pat <+: a := by
  induction a generalizing pat with
  | nil =>
    intro h
    rcases pat with _ | ⟨p, pt⟩
    · exact List.nil_prefix
    · rw [List.nil_append] at h
      have hp : p ∈ w := by
        obtain ⟨t, ht⟩ := h
        rw [← ht]
        exact List.mem_cons_self _ _
      have := hw p hp
      rw [hq p (List.mem_cons_self _ _)] at this
      exact absurd this (by simp)
  | cons c a' ih =>
    intro h
    rcases pat with _ | ⟨p, pt⟩
    · exact List.nil_prefix
    · rw [List.cons_append] at h
      rcases (List.cons_prefix_cons).1 h with ⟨rfl, ht⟩
      have hq' : ∀ d ∈ pt, q d = false := fun d hd => hq d (List.mem_cons_of_mem _ hd)
      exact (List.cons_prefix_cons).2 ⟨rfl, ih hq' ht⟩

theorem replaceAll_all_ws {pat w : Str} (hpe : pat ≠ [])
    (hpat : ∀ c ∈ pat, isSpace c = false) (hw : ∀ c ∈ w, isSpace c = true) :
    replaceAll pat [' '] w = w := by
  induction w with
  | nil => exact replaceAll_nil
  | cons c w' ih =>
    have hneg : pat.isPrefixOf (c :: w') = false := by
      rw [Bool.eq_false_iff]
      intro hp
      rcases pat with _ | ⟨p, pt⟩
      · exact hpe rfl
      · rcases (List.cons_prefix_cons).1 (List.isPrefixOf_iff_prefix.1 hp) with ⟨rfl, _⟩
        have h1 := hpat p (List.mem_cons_self _ _)
        have h2 := hw p (List.mem_cons_self _ _)
        rw [h1] at h2
        exact absurd h2 (by simp)
    rw [replaceAll_cons_neg hneg, ih (fun d hd => hw d (List.mem_cons_of_mem _ hd))]

theorem replaceAll_ws_left {pat w : Str} (hpe : pat ≠ [])
    (hpat : ∀ c ∈ pat, isSpace c = false) (hw : ∀ c ∈ w, isSpace c = true) (t : Str) :
    replaceAll pat [' '] (w ++ t) = w ++ replaceAll pat [' '] t := by
  induction w with
  | nil => rfl
  | cons c w' ih =>
    rw [List.cons_append, List.cons_append]
    have hneg : pat.isPrefixOf (c :: (w' ++ t)) = false := by
      rw [Bool.eq_false_iff]
      intro hp
      rcases pat with _ | ⟨p, pt⟩
      · exact hpe rfl
      · rcases (List.cons_prefix_cons).1 (List.isPrefixOf_iff_prefix.1 hp) with ⟨rfl, _⟩
        have h1 := hpat p (List.mem_cons_self _ _)
        have h2 := hw p (List.mem_cons_self _ _)
        rw [h1] at h2
        exact absurd h2 (by simp)
    rw [replaceAll_cons_neg hneg, ih (fun d hd => hw d (List.mem_cons_of_mem _ hd))]

theorem replaceAll_prefix_aux {pat : Str} :
    ∀ n (s q : Str), s.length ≤ n → (∀ c ∈ q, c ≠ ' ') →
      q <+: replaceAll pat [' '] s → q <+: s := by
  intro n
  induction n with
  | zero =>
    intro s q hlen hq h
    rw [List.length_eq_zero.1 (Nat.le_zero.1 hlen)] at h ⊢
    rw [replaceAll_nil] at h
    rw [List.prefix_nil.1 h]
  | succ n ih =>
    intro s q hlen hq h
    rcases s with _ | ⟨c, rest⟩
    · rw [replaceAll_nil] at h
      rw [List.prefix_nil.1 h]
    · by_cases hp : pat.isPrefixOf (c :: rest) = true
      · rw [replaceAll_cons_pos hp] at h
        rcases q with _ | ⟨a, qt⟩
        · exact List.nil_prefix
        · simp only [List.singleton_append] at h
          rcases List.cons_prefix_cons.1 h with ⟨rfl, _⟩
          exact absurd rfl (hq ' ' (List.mem_cons_self _ _))
      · rw [replaceAll_cons_neg (Bool.eq_false_iff.2 hp)] at h
        rcases q with _ | ⟨a, qt⟩
        · exact List.nil_prefix
        · rcases List.cons_prefix_cons.1 h with ⟨rfl, ht⟩
          have hlen' : rest.length ≤ n := by
            simp only [List.length_cons] at hlen
            omega
          have := ih rest qt hlen' (fun d hd => hq d (List.mem_cons_of_mem _ hd)) ht
          exact List.cons_prefix_cons.2 ⟨rfl, this⟩

theorem replaceAll_prefix {pat s q : Str} (hq : ∀ c ∈ q, c ≠ ' ')
    (h : q <+: replaceAll pat [' '] s) : q <+: s :=
  replaceAll_prefix_aux s.length s q le_rfl hq h

theorem replaceAll_infix_aux {pat : Str} :
    ∀ n (s q : Str), s.length ≤ n → (∀ c ∈ q, c ≠ ' ') →
      q <:+: replaceAll pat [' '] s → q <:+: s := by
  intro n
  induction n with
  | zero =>
    intro s q hlen hq h
    rw [List.length_eq_zero.1 (Nat.le_zero.1 hlen)] at h ⊢
    rw [replaceAll_nil] at h
    rw [List.infix_nil.1 h]
  | succ n ih =>
    intro s q hlen hq h
    rcases s with _ | ⟨c, rest⟩
    · rw [replaceAll_nil] at h
      rw [List.infix_nil.1 h]
    · have hlen' : rest.length ≤ n := by
        simp only [List.length_cons] at hlen
        omega
      by_cases hp : pat.isPrefixOf (c :: rest) = true
      · rw [replaceAll_cons_pos hp] at h
        simp only [List.singleton_append] at h
        rcases List.infix_cons_iff.1 h with hpre | hinf
        · rcases q with _ | ⟨a, qt⟩
          · exact List.nil_infix
          · rcases List.cons_prefix_cons.1 hpre with ⟨rfl, _⟩
            exact absurd rfl (hq ' ' (List.mem_cons_self _ _))
        · have hdl : (rest.drop (pat.length - 1)).length ≤ n := by
            have := List.length_drop (pat.length - 1) rest
            omega
          have h1 := ih _ q hdl hq hinf
          have h2 : q <:+: rest := h1.trans (List.drop_suffix _ _).isInfix
          exact List.infix_cons h2
      · rw [replaceAll_cons_neg (Bool.eq_false_iff.2 hp)] at h
        rcases List.infix_cons_iff.1 h with hpre | hinf
        · have : q <+: (c :: rest) := by
            have heq : c :: replaceAll pat [' '] rest = replaceAll pat [' '] (c :: rest) :=
              (replaceAll_cons_neg (Bool.eq_false_iff.2 hp)).symm
            exact replaceAll_prefix hq (heq ▸ hpre)
          exact this.isInfix
        · exact List.infix_cons (ih rest q hlen' hq hinf)

theorem replaceAll_infix {pat s q : Str} (hq : ∀ c ∈ q, c ≠ ' ')
    (h : q <:+: replaceAll pat [' '] s) : q <:+: s :=
  replaceAll_infix_aux s.length s q le_rfl hq h

theorem replaceAll_not_contains_aux {pat : Str} (hpe : pat ≠ [])
    (hq : ∀ c ∈ pat, c ≠ ' ') :
    ∀ n (s : Str), s.length ≤ n → ¬ pat <:+: replaceAll pat [' '] s := by
  intro n
  induction n with
  | zero =>
    intro s hlen h
    rw [List.length_eq_zero.1 (Nat.le_zero.1 hlen), replaceAll_nil] at h
    exact hpe (List.infix_nil.1 h)
  | succ n ih =>
    intro s hlen h
    rcases s with _ | ⟨c, rest⟩
    · rw [replaceAll_nil] at h
      exact hpe (List.infix_nil.1 h)
    · have hlen' : rest.length ≤ n := by
        simp only [List.length_cons] at hlen
        omega
      by_cases hp : pat.isPrefixOf (c :: rest) = true
      · rw [replaceAll_cons_pos hp] at h
        simp only [List.singleton_append] at h
        rcases List.infix_cons_iff.1 h with hpre | hinf
        · rcases pat with _ | ⟨a, qt⟩
          · exact hpe rfl
          · rcases List.cons_prefix_cons.1 hpre with ⟨rfl, _⟩
            exact absurd rfl (hq ' ' (List.mem_cons_self _ _))
        · have hdl : (rest.drop (pat.length - 1)).length ≤ n := by
            have := List.length_drop (pat.length - 1) rest
            omega
          exact ih _ hdl hinf
      · rw [replaceAll_cons_neg (Bool.eq_false_iff.2 hp)] at h
        rcases List.infix_cons_iff.1 h with hpre | hinf
        · have heq : c :: replaceAll pat [' '] rest = replaceAll pat [' '] (c :: rest) :=
            (replaceAll_cons_neg (Bool.eq_false_iff.2 hp)).symm
          have := replaceAll_prefix hq (heq ▸ hpre)
          exact hp (List.isPrefixOf_iff_prefix.2 this)
        · exact ih rest hlen' hinf

/-- The central removal fact:  after `s.replace(pat, " ")` the pattern no
longer occurs anywhere in the string (the replacement character is a space,
which does not occur in any of the parser's markers). -/
theorem replaceAll_not_contains {pat s : Str} (hpe : pat ≠ [])
    (hq : ∀ c ∈ pat, c ≠ ' ') :
    containsSub (replaceAll pat [' '] s) pat = false := by
  rw [Bool.eq_false_iff]
  intro h
  exact replaceAll_not_contains_aux hpe hq s.length s le_rfl (containsSub_infix_iff.1 h)

theorem replaceAll_ws_right_aux {pat w : Str} (hpe : pat ≠ [])
    (hpat : ∀ c ∈ pat, isSpace c = false) (hw : ∀ c ∈ w, isSpace c = true) :
    ∀ n (t : Str), t.length ≤ n →
      replaceAll pat [' '] (t ++ w) = replaceAll pat [' '] t ++ w := by
  intro n
  induction n with
  | zero =>
    intro t hlen
    rw [List.length_eq_zero.1 (Nat.le_zero.1 hlen)]
    rw [List.nil_append, replaceAll_nil, List.nil_append]
    exact replaceAll_all_ws hpe hpat hw
  | succ n ih =>
    intro t hlen
    rcases t with _ | ⟨c, t'⟩
    · rw [List.nil_append, replaceAll_nil, List.nil_append]
      exact replaceAll_all_ws hpe hpat hw
    · have hlen' : t'.length ≤ n := by
        simp only [List.length_cons] at hlen
        omega
      rw [List.cons_append]
      by_cases hp : pat.isPrefixOf (c :: t') = true
      · have hple : pat.length ≤ t'.length + 1 :=
          (List.isPrefixOf_iff_prefix.1 hp).length_le.trans (by simp)
        have hp2 : pat.isPrefixOf (c :: (t' ++ w)) = true := by
          rw [List.isPrefixOf_iff_prefix] at hp ⊢
          rw [← List.cons_append]
          exact hp.trans (List.prefix_append _ _)
        rw [replaceAll_cons_pos hp2, replaceAll_cons_pos hp]
        rw [List.drop_append_of_le_length (by omega)]
        have hdl : (t'.drop (pat.length - 1)).length ≤ n := by
          have := List.length_drop (pat.length - 1) t'
          omega
        rw [ih _ hdl]
        simp [List.append_assoc]
      · have hp2 : pat.isPrefixOf (c :: (t' ++ w)) = false := by
          rw [Bool.eq_false_iff]
          intro hc
          rw [List.isPrefixOf_iff_prefix] at hc
          rw [← List.cons_append] at hc
          have := prefix_cut_class hpat hw hc
          exact (Bool.eq_false_iff.1 (Bool.eq_false_iff.2 hp))
            (List.isPrefixOf_iff_prefix.2 this)
        rw [replaceAll_cons_neg hp2, replaceAll_cons_neg (Bool.eq_false_iff.2 hp)]
        rw [ih _ hlen', List.cons_append]

theorem replaceAll_ws_right {pat w : Str} (hpe : pat ≠ [])
    (hpat : ∀ c ∈ pat, isSpace c = false) (hw : ∀ c ∈ w, isSpace c = true) (t : Str) :
    replaceAll pat [' '] (t ++ w) = replaceAll pat [' '] t ++ w :=
  replaceAll_ws_right_aux hpe hpat hw t.length t le_rfl

theorem replaceAll_no_newline_aux {pat : Str} :
    ∀ n (s : Str), s.length ≤ n → '\n' ∉ s → '\n' ∉ replaceAll pat [' '] s := by
  intro n
  induction n with
  | zero =>
    intro s hlen hs
    rw [List.length_eq_zero.1 (Nat.le_zero.1 hlen), replaceAll_nil]
    simp
  | succ n ih =>
    intro s hlen hs
    rcases s with _ | ⟨c, rest⟩
    · rw [replaceAll_nil]
      simp
    · have hlen' : rest.length ≤ n := by
        simp only [List.length_cons] at hlen
        omega
      have hrest : '\n' ∉ rest := fun hm => hs (List.mem_cons_of_mem _ hm)
      by_cases hp : pat.isPrefixOf (c :: rest) = true
      · rw [replaceAll_cons_pos hp]
        intro hm
        rcases List.mem_append.1 hm with hm | hm
        · simp at hm
        · have hdl : (rest.drop (pat.length - 1)).length ≤ n := by
            have := List.length_drop (pat.length - 1) rest
            omega
          have hnd : '\n' ∉ rest.drop (pat.length - 1) :=
            fun hx => hrest (List.drop_subset _ _ hx)
          exact ih _ hdl hnd hm
      · rw [replaceAll_cons_neg (Bool.eq_false_iff.2 hp)]
        intro hm
        rcases List.mem_cons.1 hm with hm | hm
        · exact hs (hm ▸ List.mem_cons_self _ _)
        · exact ih rest hlen' hrest hm

theorem replaceAll_no_newline {pat s : Str} (h : '\n' ∉ s) :
    '\n' ∉ replaceAll pat [' '] s :=
  replaceAll_no_newline_aux s.length s le_rfl h

theorem replaceAll_split_aux {pat b : Str} (hnp : '\n' ∉ pat) (hpe : pat ≠ []) :
    ∀ n (a : Str), a.length ≤ n → '\n' ∉ a →
      replaceAll pat [' '] (a ++ '\n' :: b) =
        replaceAll pat [' '] a ++ '\n' :: replaceAll pat [' '] b := by
  intro n
  induction n with
  | zero =>
    intro a hlen _
    rw [List.length_eq_zero.1 (Nat.le_zero.1 hlen)]
    rw [List.nil_append, replaceAll_nil, List.nil_append]
    have hneg : pat.isPrefixOf ('\n' :: b) = false := by
      rw [Bool.eq_false_iff]
      intro hc
      rcases pat with _ | ⟨p, pt⟩
      · exact hpe rfl
      · rcases List.cons_prefix_cons.1 (List.isPrefixOf_iff_prefix.1 hc) with ⟨rfl, _⟩
        exact hnp (List.mem_cons_self _ _)
    rw [replaceAll_cons_neg hneg]
  | succ n ih =>
    intro a hlen ha
    rcases a with _ | ⟨c, a'⟩
    · rw [List.nil_append, replaceAll_nil, List.nil_append]
      have hneg : pat.isPrefixOf ('\n' :: b) = false := by
        rw [Bool.eq_false_iff]
        intro hc
        rcases pat with _ | ⟨p, pt⟩
        · exact hpe rfl
        · rcases List.cons_prefix_cons.1 (List.isPrefixOf_iff_prefix.1 hc) with ⟨rfl, _⟩
          exact hnp (List.mem_cons_self _ _)
      rw [replaceAll_cons_neg hneg]
    · have hlen' : a'.length ≤ n := by
        simp only [List.length_cons] at hlen
        omega
      have ha' : '\n' ∉ a' := fun hm => ha (List.mem_cons_of_mem _ hm)
      rw [List.cons_append]
      by_cases hp : pat.isPrefixOf (c :: a') = true
      · have hple : pat.length ≤ a'.length + 1 :=
          (List.isPrefixOf_iff_prefix.1 hp).length_le.trans (by simp)
        have hp2 : pat.isPrefixOf (c :: (a' ++ '\n' :: b)) = true := by
          rw [List.isPrefixOf_iff_prefix] at hp ⊢
          rw [← List.cons_append]
          exact hp.trans (List.prefix_append _ _)
        rw [replaceAll_cons_pos hp2, replaceAll_cons_pos hp]
        rw [List.drop_append_of_le_length (by omega)]
        have hdl : (a'.drop (pat.length - 1)).length ≤ n := by
          have := List.length_drop (pat.length - 1) a'
          omega
        have hnd : '\n' ∉ a'.drop (pat.length - 1) :=
          fun hx => ha' (List.drop_subset _ _ hx)
        rw [ih _ hdl hnd]
        simp [List.append_assoc]
      · have hp2 : pat.isPrefixOf (c :: (a' ++ '\n' :: b)) = false := by
          rw [Bool.eq_false_iff]
          intro hc
          rw [List.isPrefixOf_iff_prefix] at hc
          rw [← List.cons_append] at hc
          have := prefix_cut hnp hc
          exact hp (List.isPrefixOf_iff_prefix.2 this)
        rw [replaceAll_cons_neg hp2, replaceAll_cons_neg (Bool.eq_false_iff.2 hp)]
        rw [ih _ hlen' ha', List.cons_append]

theorem replaceAll_split {pat a b : Str} (hnp : '\n' ∉ pat) (hpe : pat ≠ [])
    (ha : '\n' ∉ a) :
    replaceAll pat [' '] (a ++ '\n' :: b) =
      replaceAll pat [' '] a ++ '\n' :: replaceAll pat [' '] b :=
  replaceAll_split_aux hnp hpe a.length a le_rfl ha

theorem linesP_trim {p : Char → Bool} (s : Str) : linesP p (trim s) = linesP p s := by
  have h1 : linesP p (s.dropWhile isSpace) = linesP p s := by
    conv_rhs => rw [← List.takeWhile_append_dropWhile isSpace s]
    rw [linesP_prefix_ws (fun c hc => List.mem_takeWhile_imp hc)]
  have h2 : linesP p (trim s) = linesP p (s.dropWhile isSpace) := by
    conv_rhs => rw [← rdropWhile_append_rtakeWhile isSpace (s.dropWhile isSpace)]
    rw [linesP_ws_suffix (fun c hc => List.mem_rtakeWhile_imp hc)]
    rfl
  rw [h2, h1]

/-! ## Lines of a newline join;  containment across trim and join -/

theorem isNl_false_of_not_mem {x : Str} (hnx : '\n' ∉ x) :
    ∀ c ∈ x, isNl c = false := by
  intro c hc
  simp only [isNl, decide_eq_false_iff_not]
  rintro rfl
  exact hnx hc

theorem linesP_joinNl {ls : List Str} (h : ∀ l ∈ ls, '\n' ∉ l) :
    linesP isNl (joinNl ls) = (ls.map trim).filter (fun l => ¬ l.isEmpty) := by
  induction ls with
  | nil => exact linesP_nil
  | cons x t ih =>
    rcases t with _ | ⟨y, t2⟩
    · show linesP isNl x = _
      unfold linesP
      rw [splitOnPred_no_sep (isNl_false_of_not_mem (h x (List.mem_cons_self _ _)))]
    · show linesP isNl (x ++ '\n' :: joinNl (y :: t2)) = _
      unfold linesP
      rw [splitOnPred_append_sep (by simp [isNl]) x (joinNl (y :: t2))]
      rw [splitOnPred_no_sep (isNl_false_of_not_mem (h x (List.mem_cons_self _ _)))]
      have ih2 := ih (fun l hm => h l (List.mem_cons_of_mem _ hm))
      unfold linesP at ih2
      rw [List.map_append, List.filter_append, ih2]
      simp
      rw [← List.filter_append, List.singleton_append]

theorem infix_append_cons {pat a b : Str} {x : Char} (hx : x ∉ pat) :
    pat <:+: (a ++ x :: b) → pat <:+: a ∨ pat <:+: b := by
  induction a with
  | nil =>
    intro h
    rw [List.nil_append] at h
    rcases List.infix_cons_iff.1 h with hpre | hinf
    · rcases pat with _ | ⟨p, pt⟩
      · exact Or.inl List.nil_infix
      · rcases List.cons_prefix_cons.1 hpre with ⟨rfl, _⟩
        exact absurd (List.mem_cons_self _ _) hx
    · exact Or.inr hinf
  | cons c a' ih =>
    intro h
    rw [List.cons_append] at h
    rcases List.infix_cons_iff.1 h with hpre | hinf
    · rw [← List.cons_append] at hpre
      exact Or.inl (prefix_cut hx hpre).isInfix
    · rcases ih hinf with h1 | h1
      · exact Or.inl (List.infix_cons h1)
      · exact Or.inr h1

theorem elem_infix_joinNl {ls : List Str} {l : Str} (h : l ∈ ls) :
    l <:+: joinNl ls := by
  induction ls with
  | nil => cases h
  | cons x t ih =>
    rcases t with _ | ⟨y, t2⟩
    · rcases List.mem_singleton.1 h with rfl
      exact List.infix_refl _
    · rcases List.mem_cons.1 h with rfl | hm
      · exact (List.prefix_append _ _).isInfix
      · have h1 := ih hm
        have h2 : joinNl (y :: t2) <:+: x ++ '\n' :: joinNl (y :: t2) :=
          ((List.suffix_cons _ _).trans (List.suffix_append _ _)).isInfix
        exact h1.trans h2

theorem infix_joinNl_iff {pat : Str} {ls : List Str} (hpe : pat ≠ [])
    (hnp : '\n' ∉ pat) (hl : ∀ l ∈ ls, '\n' ∉ l) :
    pat <:+: joinNl ls ↔ ∃ l ∈ ls, pat <:+: l := by
  constructor
  · suffices H : ∀ ms : List Str, (∀ l ∈ ms, '\n' ∉ l) → pat <:+: joinNl ms →
        ∃ l ∈ ms, pat <:+: l from H ls hl
    intro ms
    induction ms with
    | nil =>
      intro _ h
      exact absurd (List.infix_nil.1 h) hpe
    | cons x t ih =>
      intro hms h
      rcases t with _ | ⟨y, t2⟩
      · exact ⟨x, List.mem_cons_self _ _, h⟩
      · rcases infix_append_cons hnp h with h1 | h1
        · exact ⟨x, List.mem_cons_self _ _, h1⟩
        · rcases ih (fun l hm => hms l (List.mem_cons_of_mem _ hm)) h1 with ⟨l, hm, hinf⟩
          exact ⟨l, List.mem_cons_of_mem _ hm, hinf⟩
  · rintro ⟨l, hm, hinf⟩
    exact hinf.trans (elem_infix_joinNl hm)

theorem infix_dropWhile_of_head {pat s : Str} (hpe : pat ≠ [])
    (hh : ∀ c, pat.head? = some c → isSpace c = false) (h : pat <:+: s) :
    pat <:+: s.dropWhile isSpace := by
  induction s with
  | nil => exact absurd (List.infix_nil.1 h) hpe
  | cons c r ih =>
    by_cases hw : isSpace c = true
    · rw [List.dropWhile_cons_of_pos hw]
      rcases List.infix_cons_iff.1 h with hpre | hinf
      · rcases pat with _ | ⟨p, pt⟩
        · exact absurd rfl hpe
        · rcases List.cons_prefix_cons.1 hpre with ⟨rfl, _⟩
          rw [hh p rfl] at hw
          exact absurd hw (by simp)
      · exact ih hinf
    · rw [List.dropWhile_cons_of_neg (by simpa using hw)]
      exact h

theorem contains_trim_iff {pat s : Str} (hpe : pat ≠ [])
    (hh : ∀ c, pat.head? = some c → isSpace c = false)
    (hl : ∀ c, pat.getLast? = some c → isSpace c = false) :
    pat <:+: trim s ↔ pat <:+: s := by
  constructor
  · intro h
    exact h.trans (trim_infix_self s)
  · intro h
    have h1 : pat <:+: s.dropWhile isSpace := infix_dropWhile_of_head hpe hh h
    have h2 : pat.reverse <:+: (s.dropWhile isSpace).reverse := List.reverse_infix.2 h1
    have hh2 : ∀ c, pat.reverse.head? = some c → isSpace c = false := by
      intro c hc
      rw [List.head?_reverse] at hc
      exact hl c hc
    have hpe2 : pat.reverse ≠ [] := by simpa using hpe
    have h3 := infix_dropWhile_of_head hpe2 hh2 h2
    have h4 : pat.reverse <:+:
        (List.rdropWhile isSpace (s.dropWhile isSpace)).reverse := by
      unfold List.rdropWhile
      rw [List.reverse_reverse]
      exact h3
    have h5 := List.reverse_infix.1 h4
    exact h5

theorem containsSub_trim_iff {pat s : Str} (hpe : pat ≠ [])
    (hh : ∀ c, pat.head? = some c → isSpace c = false)
    (hl : ∀ c, pat.getLast? = some c → isSpace c = false) :
    containsSub (trim s) pat = containsSub s pat := by
  rcases hx : containsSub s pat with _ | _
  · rw [Bool.eq_false_iff]
    intro hc
    have := (contains_trim_iff hpe hh hl).1 (containsSub_infix_iff.1 hc)
    rw [← containsSub_infix_iff] at this
    rw [this] at hx
    exact absurd hx (by simp)
  · rw [containsSub_infix_iff] at hx ⊢
    exact (contains_trim_iff hpe hh hl).2 hx

/-! ## The cleaned string and its lines -/

theorem cleanOf_eq (raw : Str) :
    cleanOf raw =
      if containsSub (trim raw) oddMarker = true then
        trim (replaceAll oddMarker [' '] (trim raw))
      else if containsSub (trim raw) evenMarker = true then
        trim (replaceAll evenMarker [' '] (trim raw))
      else trim raw := by
  unfold cleanOf weekExtract
  by_cases h1 : containsSub (trim raw) oddMarker = true
  · simp [h1]
  · by_cases h2 : containsSub (trim raw) evenMarker = true
    · simp [h1, h2]
    · simp [h1, h2]

theorem weekOf_eq (raw : Str) :
    weekOf raw =
      if containsSub (trim raw) oddMarker = true then WeekPatternEnum.ODD_WEEKS
      else if containsSub (trim raw) evenMarker = true then WeekPatternEnum.EVEN_WEEKS
      else WeekPatternEnum.EVERY_WEEK := by
  unfold weekOf weekExtract
  by_cases h1 : containsSub (trim raw) oddMarker = true
  · simp [h1]
  · by_cases h2 : containsSub (trim raw) evenMarker = true
    · simp [h1, h2]
    · simp [h1, h2]

theorem cleanOf_trimmed (raw : Str) : trim (cleanOf raw) = cleanOf raw := by
  rw [cleanOf_eq]
  by_cases h1 : containsSub (trim raw) oddMarker = true
  · simp [h1, trim_idem]
  · by_cases h2 : containsSub (trim raw) evenMarker = true
    · simp [h1, h2, trim_idem]
    · simp [h1, h2, trim_idem]

theorem linesOf_eq_nil_iff {s : Str} :
    linesP isNl s = [] ↔ ∀ c ∈ s, isSpace c = true := by
  induction s with
  | nil => simp [linesP_nil]
  | cons c r ih =>
    by_cases hn : isNl c = true
    · rw [linesP_cons_sep hn]
      have hw : isSpace c = true := by
        simp only [isNl, decide_eq_true_eq] at hn
        subst hn
        rfl
      simp [ih, hw]
    · by_cases hw : isSpace c = true
      · rw [linesP_cons_ws (Bool.eq_false_iff.2 hn) hw]
        simp [ih, hw]
      · constructor
        · intro h
          exfalso
          unfold linesP at h
          rcases hr : splitOnPred isNl r with _ | ⟨hd, tl⟩
          · exact absurd hr splitOnPred_ne_nil
          · rw [splitOnPred_cons_eq hr] at h
            rw [Bool.eq_false_iff.2 hn] at h
            simp only [Bool.false_eq_true, if_false, List.map_cons, List.filter_cons] at h
            have htne : trim (c :: hd) ≠ [] := by
              intro he
              have := trim_eq_nil_iff.1 he c (List.mem_cons_self _ _)
              exact hw this
            simp [htne] at h
        · intro h
          exact absurd (h c (List.mem_cons_self _ _)) hw

theorem linesOf_nil_iff_clean_nil {clean : Str} (ht : trim clean = clean) :
    linesP isNl clean = [] ↔ clean = [] := by
  rw [linesOf_eq_nil_iff]
  constructor
  · intro h
    rw [← ht]
    exact trim_eq_nil_iff.2 h
  · rintro rfl
    simp

theorem replaceAll_joinNl {pat : Str} (hnp : '\n' ∉ pat) (hpe : pat ≠ [])
    {ls : List Str} (hl : ∀ l ∈ ls, '\n' ∉ l) :
    replaceAll pat [' '] (joinNl ls) = joinNl (ls.map (replaceAll pat [' '])) := by
  induction ls with
  | nil => exact replaceAll_nil
  | cons x t ih =>
    rcases t with _ | ⟨y, t2⟩
    · rfl
    · show replaceAll pat [' '] (x ++ '\n' :: joinNl (y :: t2)) = _
      rw [replaceAll_split hnp hpe (hl x (List.mem_cons_self _ _))]
      rw [ih (fun l hm => hl l (List.mem_cons_of_mem _ hm))]
      rfl

theorem linesP_clean_canonical_repl {pat : Str} (hpe : pat ≠ [])
    (hnp : '\n' ∉ pat) (hws : ∀ c ∈ pat, isSpace c = false)
    {ls : List Str} (hl : ∀ l ∈ ls, '\n' ∉ l) :
    linesP isNl (trim (replaceAll pat [' '] (trim (joinNl ls)))) =
      ((ls.map (fun l => trim (replaceAll pat [' '] l))).filter (fun l => ¬ l.isEmpty)) := by
  rw [linesP_trim]
  have hwL : ∀ c ∈ (joinNl ls).takeWhile isSpace, isSpace c = true :=
    fun c hc => List.mem_takeWhile_imp hc
  have hwR : ∀ c ∈ List.rtakeWhile isSpace ((joinNl ls).dropWhile isSpace),
      isSpace c = true := fun c hc => List.mem_rtakeWhile_imp hc
  have hJ : joinNl ls =
      (joinNl ls).takeWhile isSpace ++
        (trim (joinNl ls) ++ List.rtakeWhile isSpace ((joinNl ls).dropWhile isSpace)) := by
    have hD := (rdropWhile_append_rtakeWhile isSpace ((joinNl ls).dropWhile isSpace)).symm
    calc joinNl ls
        = (joinNl ls).takeWhile isSpace ++ (joinNl ls).dropWhile isSpace :=
          (List.takeWhile_append_dropWhile isSpace _).symm
      _ = (joinNl ls).takeWhile isSpace ++
            (trim (joinNl ls) ++
              List.rtakeWhile isSpace ((joinNl ls).dropWhile isSpace)) :=
          congrArg _ hD
  have hrepl : replaceAll pat [' '] (joinNl ls) =
      (joinNl ls).takeWhile isSpace ++
        (replaceAll pat [' '] (trim (joinNl ls)) ++
          List.rtakeWhile isSpace ((joinNl ls).dropWhile isSpace)) := by
    conv_lhs => rw [hJ]
    rw [replaceAll_ws_left hpe hws hwL]
    rw [replaceAll_ws_right hpe hws hwR]
  have hstep : linesP isNl (replaceAll pat [' '] (trim (joinNl ls))) =
      linesP isNl (replaceAll pat [' '] (joinNl ls)) := by
    rw [hrepl, linesP_prefix_ws hwL, linesP_ws_suffix hwR]
  rw [hstep]
  rw [replaceAll_joinNl hnp hpe hl]
  rw [linesP_joinNl (fun l hm => ?_)]
  · rw [List.map_map]
    rfl
  · rcases List.mem_map.1 hm with ⟨l0, hl0, rfl⟩
    exact replaceAll_no_newline (hl l0 hl0)

theorem linesP_clean_canonical_id {ls : List Str} (hl : ∀ l ∈ ls, '\n' ∉ l) :
    linesP isNl (trim (joinNl ls)) =
      ((ls.map trim).filter (fun l => ¬ l.isEmpty)) := by
  rw [linesP_trim]
  exact linesP_joinNl hl

/-! ## Characterizations of the accumulator fold -/

def optMin (o : Option Nat) (n : Nat) : Option Nat :=
  some (match o with | none => n | some v => min v n)

def optMax (o : Option Nat) (n : Nat) : Option Nat :=
  some (match o with | none => n | some v => max v n)

def optDay (o : Option Nat) (d : Char) : Option Nat :=
  match o with | none => dayMap d | some v => some v

theorem foldl_stepMatch_teachers (ms : List TimeMatch) (a : Acc) :
    (ms.foldl stepMatch a).teachers = a.teachers := by
  induction ms generalizing a with
  | nil => rfl
  | cons m t ih =>
    rw [List.foldl_cons, ih]
    rfl

theorem foldl_stepMatch_locations (ms : List TimeMatch) (a : Acc) :
    (ms.foldl stepMatch a).locations = a.locations ++ ms.map (fun m => trim m.loc) := by
  induction ms generalizing a with
  | nil => simp
  | cons m t ih =>
    rw [List.foldl_cons, ih]
    simp [stepMatch]

theorem foldl_stepMatch_minStart (ms : List TimeMatch) (a : Acc) :
    (ms.foldl stepMatch a).minStart =
      (ms.map (fun m => m.startP)).foldl optMin a.minStart := by
  induction ms generalizing a with
  | nil => rfl
  | cons m t ih =>
    rw [List.foldl_cons, ih]
    rfl

theorem foldl_stepMatch_maxEnd (ms : List TimeMatch) (a : Acc) :
    (ms.foldl stepMatch a).maxEnd =
      (ms.map matchEnd).foldl optMax a.maxEnd := by
  induction ms generalizing a with
  | nil => rfl
  | cons m t ih =>
    rw [List.foldl_cons, ih]
    rfl

theorem foldl_stepMatch_day (ms : List TimeMatch) (a : Acc) :
    (ms.foldl stepMatch a).day = (ms.map (fun m => m.day)).foldl optDay a.day := by
  induction ms generalizing a with
  | nil => rfl
  | cons m t ih =>
    rw [List.foldl_cons, ih]
    rfl

theorem processLine_none {a : Acc} {l : Str} (h : teacherPrefixEnd l = none) :
    processLine a l =
      if ¬ (trim l).isEmpty ∧ ¬ a.teachers.isEmpty then
        { a with teachers := a.teachers ++ [trim l] }
      else a := by
  unfold processLine
  rw [h]

theorem processLine_some {a : Acc} {l : Str} {e : Nat}
    (h : teacherPrefixEnd l = some e) :
    processLine a l =
      (findTimeMatches (trim (l.drop e))).foldl stepMatch
        { a with teachers := a.teachers ++ [trim (stripFootnote (l.take e))] } := by
  unfold processLine
  rw [h]

theorem lineMatches_none {l : Str} (h : teacherPrefixEnd l = none) :
    lineMatches l = [] := by
  unfold lineMatches
  rw [h]

theorem lineMatches_some {l : Str} {e : Nat} (h : teacherPrefixEnd l = some e) :
    lineMatches l = findTimeMatches (trim (l.drop e)) := by
  unfold lineMatches
  rw [h]

theorem processLine_locations (a : Acc) (l : Str) :
    (processLine a l).locations =
      a.locations ++ (lineMatches l).map (fun m => trim m.loc) := by
  rcases hte : teacherPrefixEnd l with _ | e
  · rw [processLine_none hte, lineMatches_none hte]
    split <;> simp
  · rw [processLine_some hte, lineMatches_some hte, foldl_stepMatch_locations]

theorem processLine_minStart (a : Acc) (l : Str) :
    (processLine a l).minStart =
      ((lineMatches l).map (fun m => m.startP)).foldl optMin a.minStart := by
  rcases hte : teacherPrefixEnd l with _ | e
  · rw [processLine_none hte, lineMatches_none hte]
    split <;> simp
  · rw [processLine_some hte, lineMatches_some hte, foldl_stepMatch_minStart]

theorem processLine_maxEnd (a : Acc) (l : Str) :
    (processLine a l).maxEnd =
      ((lineMatches l).map matchEnd).foldl optMax a.maxEnd := by
  rcases hte : teacherPrefixEnd l with _ | e
  · rw [processLine_none hte, lineMatches_none hte]
    split <;> simp
  · rw [processLine_some hte, lineMatches_some hte, foldl_stepMatch_maxEnd]

theorem processLine_day (a : Acc) (l : Str) :
    (processLine a l).day =
      ((lineMatches l).map (fun m => m.day)).foldl optDay a.day := by
  rcases hte : teacherPrefixEnd l with _ | e
  · rw [processLine_none hte, lineMatches_none hte]
    split <;> simp
  · rw [processLine_some hte, lineMatches_some hte, foldl_stepMatch_day]

theorem processLine_teachers_nil_iff (a : Acc) (l : Str) :
    (processLine a l).teachers = [] ↔
      (a.teachers = [] ∧ teacherPrefixEnd l = none) := by
  rcases hte : teacherPrefixEnd l with _ | e
  · rw [processLine_none hte]
    split
    · next hcond =>
      simp only [List.isEmpty_iff] at hcond
      constructor
      · intro h
        exact absurd h (by simp)
      · rintro ⟨h1, _⟩
        exact absurd h1 hcond.2
    · simp
  · rw [processLine_some hte]
    simp only [foldl_stepMatch_teachers]
    constructor
    · intro h
      exact absurd h (by simp)
    · rintro ⟨_, h2⟩
      exact absurd h2 (by simp)

theorem foldl_processLine_locations (ls : List Str) (a : Acc) :
    (ls.foldl processLine a).locations =
      a.locations ++ (ls.flatMap lineMatches).map (fun m => trim m.loc) := by
  induction ls generalizing a with
  | nil => simp
  | cons l t ih =>
    rw [List.foldl_cons, ih, processLine_locations]
    simp

theorem foldl_processLine_minStart (ls : List Str) (a : Acc) :
    (ls.foldl processLine a).minStart =
      ((ls.flatMap lineMatches).map (fun m => m.startP)).foldl optMin a.minStart := by
  induction ls generalizing a with
  | nil => simp
  | cons l t ih =>
    rw [List.foldl_cons, ih, processLine_minStart]
    rw [List.flatMap_cons, List.map_append, List.foldl_append]

theorem foldl_processLine_maxEnd (ls : List Str) (a : Acc) :
    (ls.foldl processLine a).maxEnd =
      ((ls.flatMap lineMatches).map matchEnd).foldl optMax a.maxEnd := by
  induction ls generalizing a with
  | nil => simp
  | cons l t ih =>
    rw [List.foldl_cons, ih, processLine_maxEnd]
    rw [List.flatMap_cons, List.map_append, List.foldl_append]

theorem foldl_processLine_day (ls : List Str) (a : Acc) :
    (ls.foldl processLine a).day =
      ((ls.flatMap lineMatches).map (fun m => m.day)).foldl optDay a.day := by
  induction ls generalizing a with
  | nil => simp
  | cons l t ih =>
    rw [List.foldl_cons, ih, processLine_day]
    rw [List.flatMap_cons, List.map_append, List.foldl_append]

theorem foldl_processLine_teachers_nil_iff (ls : List Str) (a : Acc) :
    (ls.foldl processLine a).teachers = [] ↔
      (a.teachers = [] ∧ ∀ l ∈ ls, teacherPrefixEnd l = none) := by
  induction ls generalizing a with
  | nil => simp
  | cons l t ih =>
    rw [List.foldl_cons, ih, processLine_teachers_nil_iff]
    constructor
    · rintro ⟨⟨h1, h2⟩, h3⟩
      exact ⟨h1, fun x hx => by
        rcases List.mem_cons.1 hx with rfl | hx
        · exact h2
        · exact h3 x hx⟩
    · rintro ⟨h1, h2⟩
      exact ⟨⟨h1, h2 l (List.mem_cons_self _ _)⟩, fun x hx => h2 x (List.mem_cons_of_mem _ hx)⟩

/-! ## The min / max / first-day folds -/

theorem foldl_optMin_none_iff {l : List Nat} {o : Option Nat} :
    l.foldl optMin o = none ↔ (o = none ∧ l = []) := by
  induction l generalizing o with
  | nil => simp
  | cons n t ih =>
    rw [List.foldl_cons]
    simp [ih, optMin]

theorem foldl_optMin_le {l : List Nat} {o : Option Nat} {s : Nat}
    (h : l.foldl optMin o = some s) :
    (∀ x ∈ l, s ≤ x) ∧ (∀ v, o = some v → s ≤ v) := by
  induction l generalizing o with
  | nil =>
    simp only [List.foldl_nil] at h
    refine ⟨by simp, fun v hv => ?_⟩
    rw [h] at hv
    cases hv
    exact le_refl _
  | cons n t ih =>
    rw [List.foldl_cons] at h
    have hx := ih h
    rcases o with _ | v
    · have hm : s ≤ n := hx.2 n rfl
      constructor
      · intro x hxm
        rcases List.mem_cons.1 hxm with rfl | hxm
        · exact hm
        · exact hx.1 x hxm
      · intro w hw
        exact absurd hw (by simp)
    · have hm : s ≤ min v n := hx.2 (min v n) rfl
      constructor
      · intro x hxm
        rcases List.mem_cons.1 hxm with rfl | hxm
        · exact le_trans hm (min_le_right _ _)
        · exact hx.1 x hxm
      · intro w hw
        cases hw
        exact le_trans hm (min_le_left _ _)

theorem foldl_optMin_mem {l : List Nat} {o : Option Nat} {s : Nat}
    (h : l.foldl optMin o = some s) : s ∈ l ∨ o = some s := by
  induction l generalizing o with
  | nil =>
    simp only [List.foldl_nil] at h
    exact Or.inr h
  | cons n t ih =>
    rw [List.foldl_cons] at h
    rcases ih h with hm | hm
    · exact Or.inl (List.mem_cons_of_mem _ hm)
    · rcases o with _ | v
      · simp only [optMin] at hm
        cases hm
        exact Or.inl (List.mem_cons_self _ _)
      · simp only [optMin] at hm
        cases hm
        rcases Nat.le_total v n with hle | hle
        · rw [Nat.min_eq_left hle]
          exact Or.inr rfl
        · rw [Nat.min_eq_right hle]
          exact Or.inl (List.mem_cons_self _ _)

theorem foldl_optMax_none_iff {l : List Nat} {o : Option Nat} :
    l.foldl optMax o = none ↔ (o = none ∧ l = []) := by
  induction l generalizing o with
  | nil => simp
  | cons n t ih =>
    rw [List.foldl_cons]
    simp [ih, optMax]

theorem foldl_optMax_ge {l : List Nat} {o : Option Nat} {s : Nat}
    (h : l.foldl optMax o = some s) :
    (∀ x ∈ l, x ≤ s) ∧ (∀ v, o = some v → v ≤ s) := by
  induction l generalizing o with
  | nil =>
    simp only [List.foldl_nil] at h
    refine ⟨by simp, fun v hv => ?_⟩
    rw [h] at hv
    cases hv
    exact le_refl _
  | cons n t ih =>
    rw [List.foldl_cons] at h
    have hx := ih h
    rcases o with _ | v
    · have hm : n ≤ s := hx.2 n rfl
      constructor
      · intro x hxm
        rcases List.mem_cons.1 hxm with rfl | hxm
        · exact hm
        · exact hx.1 x hxm
      · intro w hw
        exact absurd hw (by simp)
    · have hm : max v n ≤ s := hx.2 (max v n) rfl
      constructor
      · intro x hxm
        rcases List.mem_cons.1 hxm with rfl | hxm
        · exact le_trans (le_max_right _ _) hm
        · exact hx.1 x hxm
      · intro w hw
        cases hw
        exact le_trans (le_max_left _ _) hm

theorem foldl_optMax_mem {l : List Nat} {o : Option Nat} {s : Nat}
    (h : l.foldl optMax o = some s) : s ∈ l ∨ o = some s := by
  induction l generalizing o with
  | nil =>
    simp only [List.foldl_nil] at h
    exact Or.inr h
  | cons n t ih =>
    rw [List.foldl_cons] at h
    rcases ih h with hm | hm
    · exact Or.inl (List.mem_cons_of_mem _ hm)
    · rcases o with _ | v
      · simp only [optMax] at hm
        cases hm
        exact Or.inl (List.mem_cons_self _ _)
      · simp only [optMax] at hm
        cases hm
        rcases Nat.le_total v n with hle | hle
        · rw [Nat.max_eq_right hle]
          exact Or.inl (List.mem_cons_self _ _)
        · rw [Nat.max_eq_left hle]
          exact Or.inr rfl

theorem foldl_optDay_some {l : List Char} {v : Nat} :
    l.foldl optDay (some v) = some v := by
  induction l with
  | nil => rfl
  | cons d t ih =>
    rw [List.foldl_cons]
    exact ih

theorem dayGlyph_dayMap_some {d : Char} (h : dayGlyph d = true) :
    ∃ k, dayMap d = some k := by
  simp only [dayGlyph, Bool.or_eq_true, decide_eq_true_eq] at h
  rcases h with ((((((h | h) | h) | h) | h) | h) | h) <;> subst h <;> exact ⟨_, rfl⟩

theorem foldl_optDay_glyph_head {d : Char} {t : List Char} (hg : dayGlyph d = true) :
    (d :: t).foldl optDay none = dayMap d := by
  rw [List.foldl_cons]
  show t.foldl optDay (optDay none d) = dayMap d
  have h1 : optDay none d = dayMap d := rfl
  rw [h1]
  rcases dayGlyph_dayMap_some hg with ⟨k, hk⟩
  rw [hk]
  exact foldl_optDay_some

/-! ## Equations and facts for the match scanner -/

theorem matchTimeTail_day {d : Char} {ds r4 : Str} {m : TimeMatch} {t : Str}
    (h : matchTimeTail d ds r4 = some (m, t)) : m.day = d := by
  unfold matchTimeTail at h
  split at h
  · exact absurd h (by simp)
  · split at h
    · split at h
      · rcases Option.map_eq_some'.1 h with ⟨q, _, hqe⟩
        cases hqe
        rfl
      · exact absurd h (by simp)
    · exact absurd h (by simp)

theorem matchTimeMid_day {d : Char} {ds r3 : Str} {m : TimeMatch} {t : Str}
    (h : matchTimeMid d ds r3 = some (m, t)) : m.day = d := by
  unfold matchTimeMid at h
  split at h
  · exact absurd h (by simp)
  · split at h
    · split at h
      · rcases Option.map_eq_some'.1 h with ⟨q, _, hqe⟩
        cases hqe
        rfl
      · split at h
        · exact matchTimeTail_day h
        · exact absurd h (by simp)
    · exact absurd h (by simp)

theorem matchTimeBody_day {d : Char} {rest : Str} {m : TimeMatch} {t : Str}
    (h : matchTimeBody d rest = some (m, t)) : m.day = d := by
  unfold matchTimeBody at h
  exact matchTimeMid_day h

theorem matchTimeAt_day_glyph {s : Str} {m : TimeMatch} {t : Str}
    (h : matchTimeAt s = some (m, t)) : dayGlyph m.day = true := by
  unfold matchTimeAt at h
  split at h
  · next o d cp rest =>
    split at h
    · next hg =>
      rw [matchTimeBody_day h]
      exact hg.2.2
    · exact absurd h (by simp)
  · exact absurd h (by simp)

theorem findTimeMatches_nil : findTimeMatches [] = [] := rfl

theorem findTimeMatches_pos {s : Str} {m : TimeMatch} {t : Str}
    (h : matchTimeAt s = some (m, t)) :
    findTimeMatches s = m :: findTimeMatches t := by
  have hlt := matchTimeAt_length h
  rcases s with _ | ⟨c, rest⟩
  · rw [show matchTimeAt [] = none from rfl] at h
    cases h
  · show findTimeMatchesF (rest.length + 1) (c :: rest) = _
    rw [findTimeMatchesF_succ, h]
    simp only [List.length_cons] at hlt
    exact congrArg (m :: ·)
      (findTimeMatchesF_fuel rest.length t.length t (by omega) le_rfl)

theorem findTimeMatches_neg_cons {c : Char} {rest : Str}
    (h : matchTimeAt (c :: rest) = none) :
    findTimeMatches (c :: rest) = findTimeMatches rest := by
  show findTimeMatchesF (rest.length + 1) (c :: rest) = _
  rw [findTimeMatchesF_succ, h]
  rfl

theorem findTimeMatches_glyph_aux :
    ∀ n (s : Str), s.length ≤ n → ∀ m ∈ findTimeMatches s, dayGlyph m.day = true := by
  intro n
  induction n with
  | zero =>
    intro s hlen m hm
    rw [List.length_eq_zero.1 (Nat.le_zero.1 hlen)] at hm
    rw [findTimeMatches_nil] at hm
    cases hm
  | succ n ih =>
    intro s hlen m hm
    rcases hma : matchTimeAt s with _ | ⟨m0, t⟩
    · rcases s with _ | ⟨c, rest⟩
      · rw [findTimeMatches_nil] at hm
        cases hm
      · rw [findTimeMatches_neg_cons hma] at hm
        have hlen' : rest.length ≤ n := by
          simp only [List.length_cons] at hlen
          omega
        exact ih rest hlen' m hm
    · rw [findTimeMatches_pos hma] at hm
      rcases List.mem_cons.1 hm with rfl | hm
      · exact matchTimeAt_day_glyph hma
      · have hlen' : t.length ≤ n := by
          have := matchTimeAt_length hma
          omega
        exact ih t hlen' m hm

theorem findTimeMatches_glyph {s : Str} :
    ∀ m ∈ findTimeMatches s, dayGlyph m.day = true :=
  findTimeMatches_glyph_aux s.length s le_rfl

theorem cellMatches_glyph {raw : Str} :
    ∀ m ∈ cellMatches raw, dayGlyph m.day = true := by
  intro m hm
  unfold cellMatches at hm
  rcases List.mem_flatMap.1 hm with ⟨l, _, hml⟩
  unfold lineMatches at hml
  rcases hte : teacherPrefixEnd l with _ | e
  · rw [hte] at hml
    cases hml
  · rw [hte] at hml
    exact findTimeMatches_glyph m hml

/-! ## Characterizations of the parser's output fields -/

theorem parse_eq_timed {raw : Str}
    (h : containsSub (cleanOf raw) timeUndecided = false) :
    parse_course_string raw = processTimed (weekOf raw) (cleanOf raw) := by
  unfold parse_course_string
  rw [h]
  simp

theorem parse_eq_tu {raw : Str}
    (h : containsSub (cleanOf raw) timeUndecided = true) :
    parse_course_string raw =
      { teachers := tuTeachers (cleanOf raw)
        dayOfWeek := none
        startPeriod := none
        endPeriod := none
        location := tuLocation (cleanOf raw)
        weekPattern := weekOf raw } := by
  unfold parse_course_string
  rw [h]
  simp

theorem accFold_locations (clean : Str) :
    (accFold clean).locations =
      ((linesP isNl clean).flatMap lineMatches).map (fun m => trim m.loc) := by
  unfold accFold
  rw [foldl_processLine_locations]
  show [] ++ _ = _
  rw [List.nil_append, List.map_flatMap]

theorem accFold_minStart (clean : Str) :
    (accFold clean).minStart =
      (((linesP isNl clean).flatMap lineMatches).map (fun m => m.startP)).foldl
        optMin none := by
  unfold accFold
  rw [foldl_processLine_minStart, List.map_flatMap]
  rfl

theorem accFold_maxEnd (clean : Str) :
    (accFold clean).maxEnd =
      (((linesP isNl clean).flatMap lineMatches).map matchEnd).foldl optMax none := by
  unfold accFold
  rw [foldl_processLine_maxEnd, List.map_flatMap]
  rfl

theorem accFold_day (clean : Str) :
    (accFold clean).day =
      (((linesP isNl clean).flatMap lineMatches).map (fun m => m.day)).foldl
        optDay none := by
  unfold accFold
  rw [foldl_processLine_day, List.map_flatMap]
  rfl

theorem accFold_teachers_nil_iff (clean : Str) :
    (accFold clean).teachers = [] ↔
      ∀ l ∈ linesP isNl clean, teacherPrefixEnd l = none := by
  unfold accFold
  rw [foldl_processLine_teachers_nil_iff]
  simp [initAcc]

theorem parse_location_char {raw : Str}
    (h : containsSub (cleanOf raw) timeUndecided = false) :
    (parse_course_string raw).location =
      joinSep sepDot (sortDedup ((cellMatches raw).map (fun m => trim m.loc))) := by
  rw [parse_eq_timed h]
  unfold processTimed
  split
  · next hcond =>
    have hloc : (accFold (cleanOf raw)).locations = [] :=
      List.isEmpty_iff.1 hcond.2.1
    have hmap : (cellMatches raw).map (fun m => trim m.loc) = [] := by
      unfold cellMatches
      rw [← accFold_locations]
      exact hloc
    rw [hmap]
    rfl
  · show joinSep sepDot (sortDedup (accFold (cleanOf raw)).locations) = _
    rw [accFold_locations]
    rfl

theorem cellMatches_nil_of_fallback {raw : Str}
    (hloc : (accFold (cleanOf raw)).locations = []) : cellMatches raw = [] := by
  have := accFold_locations (cleanOf raw)
  rw [hloc] at this
  exact List.map_eq_nil.1 this.symm

theorem parse_minStart_char {raw : Str}
    (h : containsSub (cleanOf raw) timeUndecided = false) :
    (parse_course_string raw).startPeriod =
      ((cellMatches raw).map (fun m => m.startP)).foldl optMin none := by
  rw [parse_eq_timed h]
  unfold processTimed
  split
  · next hcond =>
    have hm := cellMatches_nil_of_fallback (List.isEmpty_iff.1 hcond.2.1)
    rw [hm]
    rfl
  · show (accFold (cleanOf raw)).minStart = _
    rw [accFold_minStart]
    rfl

theorem parse_maxEnd_char {raw : Str}
    (h : containsSub (cleanOf raw) timeUndecided = false) :
    (parse_course_string raw).endPeriod =
      ((cellMatches raw).map matchEnd).foldl optMax none := by
  rw [parse_eq_timed h]
  unfold processTimed
  split
  · next hcond =>
    have hm := cellMatches_nil_of_fallback (List.isEmpty_iff.1 hcond.2.1)
    rw [hm]
    rfl
  · show (accFold (cleanOf raw)).maxEnd = _
    rw [accFold_maxEnd]
    rfl

theorem parse_day_char {raw : Str}
    (h : containsSub (cleanOf raw) timeUndecided = false) :
    (parse_course_string raw).dayOfWeek =
      ((cellMatches raw).map (fun m => m.day)).foldl optDay none := by
  rw [parse_eq_timed h]
  unfold processTimed
  split
  · next hcond =>
    have hm := cellMatches_nil_of_fallback (List.isEmpty_iff.1 hcond.2.1)
    rw [hm]
    rfl
  · show (accFold (cleanOf raw)).day = _
    rw [accFold_day]
    rfl

theorem parse_weekPattern (raw : Str) :
    (parse_course_string raw).weekPattern = weekOf raw := by
  unfold parse_course_string
  split
  · rfl
  · unfold processTimed
    split <;> rfl

/-! ## Sorting the classroom set -/

theorem lexLe_total (a b : Str) : lexLe a b = true ∨ lexLe b a = true := by
  induction a generalizing b with
  | nil => exact Or.inl rfl
  | cons x xs ih =>
    rcases b with _ | ⟨y, ys⟩
    · exact Or.inr rfl
    · unfold lexLe
      rcases lt_trichotomy x y with hlt | heq | hgt
      · left
        simp [hlt, not_lt_of_lt hlt]
      · subst heq
        rcases ih ys with h1 | h1
        · left
          simp [lt_irrefl, h1]
        · right
          simp [lt_irrefl, h1]
      · right
        simp [hgt, not_lt_of_lt hgt]

theorem lexLe_antisymm {a b : Str} (h1 : lexLe a b = true) (h2 : lexLe b a = true) :
    a = b := by
  induction a generalizing b with
  | nil =>
    rcases b with _ | ⟨y, ys⟩
    · rfl
    · simp [lexLe] at h2
  | cons x xs ih =>
    rcases b with _ | ⟨y, ys⟩
    · simp [lexLe] at h1
    · unfold lexLe at h1 h2
      rcases lt_trichotomy x y with hlt | heq | hgt
      · rw [if_neg (not_lt_of_lt hlt), if_pos hlt] at h2
        exact absurd h2 (by simp)
      · subst heq
        rw [if_neg (lt_irrefl x), if_neg (lt_irrefl x)] at h1 h2
        rw [ih h1 h2]
      · rw [if_neg (not_lt_of_lt hgt), if_pos hgt] at h1
        exact absurd h1 (by simp)

theorem lexLe_trans {a b c : Str} (h1 : lexLe a b = true) (h2 : lexLe b c = true) :
    lexLe a c = true := by
  induction a generalizing b c with
  | nil => rfl
  | cons x xs ih =>
    rcases b with _ | ⟨y, ys⟩
    · simp [lexLe] at h1
    · rcases c with _ | ⟨z, zs⟩
      · simp [lexLe] at h2
      · unfold lexLe at h1 h2 ⊢
        by_cases hxy : x < y
        · have hyz : y ≤ z := by
            by_contra hc
            push_neg at hc
            rw [if_neg (not_lt_of_lt hc), if_pos hc] at h2
            exact absurd h2 (by simp)
          have hxz : x < z := lt_of_lt_of_le hxy hyz
          rw [if_pos hxz]
        · rw [if_neg hxy] at h1
          by_cases hyx : y < x
          · rw [if_pos hyx] at h1
            exact absurd h1 (by simp)
          · rw [if_neg hyx] at h1
            have hxy2 : x = y := le_antisymm (le_of_not_lt hyx) (le_of_not_lt hxy)
            subst hxy2
            by_cases hxz : x < z
            · rw [if_pos hxz]
            · rw [if_neg hxz] at h2 ⊢
              by_cases hzx : z < x
              · rw [if_pos hzx] at h2
                exact absurd h2 (by simp)
              · rw [if_neg hzx] at h2 ⊢
                exact ih h1 h2

instance : IsTotal Str LexLe := ⟨fun a b => lexLe_total a b⟩

instance : IsTrans Str LexLe := ⟨fun _ _ _ h1 h2 => lexLe_trans h1 h2⟩

instance : IsAntisymm Str LexLe := ⟨fun _ _ h1 h2 => lexLe_antisymm h1 h2⟩

theorem sortDedup_perm_eq {l₁ l₂ : List Str} (h : List.Perm l₁ l₂) :
    sortDedup l₁ = sortDedup l₂ := by
  unfold sortDedup
  have hd : List.Perm l₁.dedup l₂.dedup := h.dedup
  have hp : List.Perm (List.insertionSort LexLe l₁.dedup)
      (List.insertionSort LexLe l₂.dedup) :=
    ((List.perm_insertionSort _ _).trans hd).trans (List.perm_insertionSort _ _).symm
  exact List.eq_of_perm_of_sorted hp
    (List.sorted_insertionSort _ _) (List.sorted_insertionSort _ _)

/-! ## Facts about the emitted teacher names -/

theorem dedupFirstAux_subset (seen l : List Str) :
    ∀ t ∈ dedupFirstAux seen l, t ∈ l := by
  induction l generalizing seen with
  | nil =>
    intro t ht
    cases ht
  | cons x xs ih =>
    intro t ht
    unfold dedupFirstAux at ht
    split at ht
    · exact List.mem_cons_of_mem _ (ih seen t ht)
    · rcases List.mem_cons.1 ht with rfl | ht
      · exact List.mem_cons_self _ _
      · exact List.mem_cons_of_mem _ (ih _ t ht)

theorem dedupFirst_subset {l : List Str} {t : Str} (h : t ∈ dedupFirst l) : t ∈ l :=
  dedupFirstAux_subset [] l t h

theorem dedupFirst_ne_nil {l : List Str} (h : l ≠ []) : dedupFirst l ≠ [] := by
  rcases l with _ | ⟨x, xs⟩
  · exact absurd rfl h
  · unfold dedupFirst dedupFirstAux
    split
    · next hmem => exact absurd hmem (by simp)
    · simp

theorem linesP_mem {p : Char → Bool} {s l : Str} (h : l ∈ linesP p s) :
    (∃ chunk, l = trim chunk) ∧ l ≠ [] := by
  unfold linesP at h
  rw [List.mem_filter] at h
  rcases List.mem_map.1 h.1 with ⟨chunk, _, rfl⟩
  refine ⟨⟨chunk, rfl⟩, ?_⟩
  have := h.2
  simp only [List.isEmpty_iff, decide_eq_true_eq] at this
  exact this

theorem teacherPrefixEnd_pos {l : Str} {e : Nat} (h : teacherPrefixEnd l = some e) :
    1 ≤ e := by
  unfold teacherPrefixEnd at h
  rcases l with _ | ⟨c, rest⟩
  · cases h
  · rcases Option.map_eq_some'.1 h with ⟨v, _, rfl⟩
    omega

theorem getLast?_mem_str {l : Str} {c : Char} (h : l.getLast? = some c) : c ∈ l := by
  have hne : l ≠ [] := by
    intro he
    rw [he] at h
    cases h
  rw [List.getLast?_eq_getLast _ hne] at h
  cases h
  exact List.getLast_mem hne

theorem getLast?_dropWhile_ne_nil {p : Char → Bool} {l : Str}
    (h : l.dropWhile p ≠ []) : l.getLast? = (l.dropWhile p).getLast? := by
  conv_lhs => rw [← List.takeWhile_append_dropWhile p l]
  rw [List.getLast?_append]
  rcases hgl : (l.dropWhile p).getLast? with _ | cl
  · rw [List.getLast?_eq_none_iff] at hgl
    exact absurd hgl h
  · rfl

theorem trim_stripFootnote_ne_nil {x : Str} (hx : x ≠ [])
    (hh : ∀ c, x.head? = some c → isSpace c = false) :
    trim (stripFootnote x) ≠ [] := by
  unfold stripFootnote
  split
  · next hcond =>
    intro he
    have hall := trim_eq_nil_iff.1 he
    rcases hd : (x.reverse.dropWhile isDigitC).dropWhile isSpace with _ | ⟨c0, t0⟩
    · rcases hre : x.reverse.dropWhile isDigitC with _ | ⟨d0, u0⟩
      · rw [hre] at hcond
        simp at hcond
      · have hallr : ∀ c ∈ x.reverse.dropWhile isDigitC, isSpace c = true :=
          List.dropWhile_eq_nil_iff.1 hd
        have hne2 : x.reverse.dropWhile isDigitC ≠ [] := by
          rw [hre]; simp
        have hlast := getLast?_dropWhile_ne_nil hne2
        rw [List.getLast?_reverse] at hlast
        rcases hgl : (x.reverse.dropWhile isDigitC).getLast? with _ | cl
        · rw [hre] at hgl
          simp at hgl
        · rw [hgl] at hlast
          have hcl := hallr cl (getLast?_mem_str hgl)
          rw [hh cl hlast] at hcl
          exact absurd hcl (by simp)
    · have hc0 : isSpace c0 = false := head?_dropWhile_false (by rw [hd]; rfl)
      have hmem : c0 ∈ ((x.reverse.dropWhile isDigitC).dropWhile isSpace).reverse := by
        rw [hd]
        simp
      have := hall c0 hmem
      rw [hc0] at this
      exact absurd this (by simp)
  · intro he
    have hall := trim_eq_nil_iff.1 he
    rcases x with _ | ⟨c, t⟩
    · exact hx rfl
    · have h1 := hh c rfl
      have h2 := hall c (List.mem_cons_self _ _)
      rw [h1] at h2
      exact absurd h2 (by simp)

theorem head?_take_pos {l : Str} {e : Nat} (he : 1 ≤ e) :
    (l.take e).head? = l.head? := by
  rcases l with _ | ⟨c, t⟩
  · simp
  · rcases e with _ | e'
    · omega
    · rfl

theorem take_ne_nil_of_pos {l : Str} {e : Nat} (he : 1 ≤ e) (hl : l ≠ []) :
    l.take e ≠ [] := by
  rcases l with _ | ⟨c, t⟩
  · exact absurd rfl hl
  · rcases e with _ | e'
    · omega
    · simp

theorem foldl_processLine_teacher_prop :
    ∀ (ls : List Str) (a : Acc),
      (∀ l ∈ ls, l ≠ [] ∧ trim l = l) →
      (∀ t ∈ a.teachers, t ≠ [] ∧ trim t = t) →
      ∀ t ∈ (ls.foldl processLine a).teachers, t ≠ [] ∧ trim t = t := by
  intro ls
  induction ls with
  | nil =>
    intro a _ ha
    exact ha
  | cons l lt ih =>
    intro a hls ha
    rw [List.foldl_cons]
    refine ih _ (fun x hx => hls x (List.mem_cons_of_mem _ hx)) ?_
    have hl := hls l (List.mem_cons_self _ _)
    have hlh : ∀ c, l.head? = some c → isSpace c = false := by
      intro c hc
      rw [← hl.2] at hc
      exact trim_head?_not_ws hc
    rcases hte : teacherPrefixEnd l with _ | e
    · rw [processLine_none hte]
      split
      · next hcond =>
        intro t ht
        rcases List.mem_append.1 ht with ht | ht
        · exact ha t ht
        · rcases List.mem_singleton.1 ht with rfl
          refine ⟨?_, trim_idem l⟩
          simp only [List.isEmpty_iff] at hcond
          exact hcond.1
      · exact ha
    · rw [processLine_some hte]
      intro t ht
      rw [foldl_stepMatch_teachers] at ht
      rcases List.mem_append.1 ht with ht | ht
      · exact ha t ht
      · rcases List.mem_singleton.1 ht with rfl
        have he1 := teacherPrefixEnd_pos hte
        refine ⟨?_, trim_idem _⟩
        apply trim_stripFootnote_ne_nil (take_ne_nil_of_pos he1 hl.1)
        intro c hc
        rw [head?_take_pos he1] at hc
        exact hlh c hc

/-! ## The claims -/

/-- C9: `parse_course_string` is total: for every input string, including
malformed or partial input, it returns a structured result and never raises.
In the embedding every fallible step of the source is guarded, so the parser
is a total function into `ParseResult`. -/
theorem C9_total : ∀ raw : Str, ∃ r : ParseResult, parse_course_string raw = r :=
  fun raw => ⟨parse_course_string raw, rfl⟩

/-- C8: dayOfWeek, startPeriod and endPeriod are all-or-nothing: the three
fields are present or absent together, and (outside the time-undecided
branch) startPeriod is absent exactly when no day/period/room token was
recognized anywhere in the cell. -/
theorem C8_all_or_nothing (raw : Str) :
    ((parse_course_string raw).dayOfWeek.isSome =
        (parse_course_string raw).startPeriod.isSome ∧
      (parse_course_string raw).startPeriod.isSome =
        (parse_course_string raw).endPeriod.isSome) ∧
    (containsSub (cleanOf raw) timeUndecided = false →
      ((parse_course_string raw).startPeriod = none ↔ cellMatches raw = [])) := by
  by_cases htu : containsSub (cleanOf raw) timeUndecided = true
  · rw [parse_eq_tu htu]
    constructor
    · simp
    · intro h
      rw [htu] at h
      exact absurd h (by simp)
  · have hf : containsSub (cleanOf raw) timeUndecided = false := Bool.eq_false_iff.2 htu
    have hs := parse_minStart_char hf
    have hemax := parse_maxEnd_char hf
    have hd := parse_day_char hf
    rcases hcm : cellMatches raw with _ | ⟨m0, mt⟩
    · rw [hcm] at hs hemax hd
      simp only [List.map_nil, List.foldl_nil] at hs hemax hd
      refine ⟨⟨by rw [hs, hd], by rw [hs, hemax]⟩, fun _ => ?_⟩
      rw [hs]
      simp
    · have hglyph := @cellMatches_glyph raw m0
        (by rw [hcm]; exact List.mem_cons_self _ _)
      have hdv : (parse_course_string raw).dayOfWeek = dayMap m0.day := by
        rw [hd, hcm]
        simp only [List.map_cons]
        exact foldl_optDay_glyph_head hglyph
      rcases dayGlyph_dayMap_some hglyph with ⟨k, hk⟩
      have hsne : (parse_course_string raw).startPeriod ≠ none := by
        rw [hs, Ne, foldl_optMin_none_iff, hcm]
        simp
      have hene : (parse_course_string raw).endPeriod ≠ none := by
        rw [hemax, Ne, foldl_optMax_none_iff, hcm]
        simp
      rcases Option.ne_none_iff_exists'.1 hsne with ⟨sv, hsv⟩
      rcases Option.ne_none_iff_exists'.1 hene with ⟨ev, hev⟩
      refine ⟨⟨?_, ?_⟩, fun _ => ⟨fun hn => absurd hn hsne, fun hc => ?_⟩⟩
      · rw [hdv, hk, hsv]
        rfl
      · rw [hsv, hev]
        rfl
      · exact absurd hc (by simp)

/-- C8 applied at a concrete two-entry cell. -/
theorem C8_witness :
    containsSub (cleanOf (['a', '(', '一', ')', '3', '(', 'B', ')'] : Str))
        timeUndecided = false ∧
      ((parse_course_string ['a', '(', '一', ')', '3', '(', 'B', ')']).startPeriod = none ↔
        cellMatches ['a', '(', '一', ')', '3', '(', 'B', ')'] = []) :=
  ⟨by decide, (C8_all_or_nothing ['a', '(', '一', ')', '3', '(', 'B', ')']).2 (by decide)⟩

/-- The classroom of the time-undecided branch as the claim words it: the
trimmed content of the first parenthesized group of the cleaned string,
except that content equal to the literal 教室未定 is rejected; the sentinel
教室未定 is used when the group is rejected or absent. -/
def specC5Location (raw : Str) : Str :=
  match firstParenGroup (cleanOf raw) with
  | some g => if trim g = roomTBD then roomTBD else trim g
  | none => roomTBD

/-- C5: for every input containing 時間未定, the returned location is the
trimmed content of the first parenthesized group found in the (cleaned)
string, with content equal to the literal 教室未定 rejected in favour of the
sentinel, and the sentinel used when no group exists. -/
theorem C5_tu_location (raw : Str)
    (h : containsSub (cleanOf raw) timeUndecided = true) :
    (parse_course_string raw).location = specC5Location raw := by
  rw [parse_eq_tu h]
  show tuLocation (cleanOf raw) = specC5Location raw
  unfold tuLocation specC5Location
  rcases firstParenGroup (cleanOf raw) with _ | g
  · rfl
  · by_cases hg : trim g = roomTBD
    · simp [hg]
    · simp [hg]

/-- C5 applied at the concrete input 時間未定(A). -/
theorem C5_witness :
    containsSub (cleanOf (['時', '間', '未', '定', '(', 'A', ')'] : Str))
        timeUndecided = true ∧
      (parse_course_string ['時', '間', '未', '定', '(', 'A', ')']).location =
        specC5Location ['時', '間', '未', '定', '(', 'A', ')'] :=
  ⟨by decide, C5_tu_location _ (by decide)⟩

/-- The separator-and-whitespace class the claim C6 describes for trimming
the teacher-name segment: 、, /, ,, and any whitespace. -/
def claimSepWs (c : Char) : Bool := c = '、' || c = '/' || c = ',' || isSpace c

/-- The teacher list of the time-undecided branch as claim C6 words it:
the segment before the marker trimmed of separators and whitespace at both
ends, split on 、 or ,, fragments trimmed, empties dropped, sentinel 無 when
nothing remains. -/
def specC6TeachersClaimed (raw : Str) : List Str :=
  if (((splitOnPred isSep3 (stripChars claimSepWs (tuSplitBefore (cleanOf raw)))).map
        trim).filter (fun t => ¬ t.isEmpty)).isEmpty then
    [noneSentinel]
  else
    ((splitOnPred isSep3 (stripChars claimSepWs (tuSplitBefore (cleanOf raw)))).map
        trim).filter (fun t => ¬ t.isEmpty)

/-- C6 fails as stated: on 王/<tab>,時間未定 the code strips only spaces
(not all whitespace) from the segment ends, so the slash survives inside the
teacher name, while the claim's whitespace-trimming removes it. -/
theorem C6_counterexample :
    (parse_course_string ['王', '/', '\t', ',', '時', '間', '未', '定']).teachers =
        [['王', '/']] ∧
      specC6TeachersClaimed ['王', '/', '\t', ',', '時', '間', '未', '定'] = [['王']] ∧
      ([['王', '/']] : List Str) ≠ [['王']] :=
  ⟨by decide, by decide, by decide⟩

/-- The teacher list of the time-undecided branch as amended: the segment is
trimmed of 、, /, and the space character only (matching strip("、/, ")). -/
def specC6TeachersAmended (raw : Str) : List Str :=
  if (((splitOnPred isSep3 (stripChars isSep2 (tuSplitBefore (cleanOf raw)))).map
        trim).filter (fun t => ¬ t.isEmpty)).isEmpty then
    [noneSentinel]
  else
    ((splitOnPred isSep3 (stripChars isSep2 (tuSplitBefore (cleanOf raw)))).map
        trim).filter (fun t => ¬ t.isEmpty)

/-- C6 (amended): for every input containing 時間未定 the result has
dayOfWeek, startPeriod and endPeriod absent and the teachers are obtained
from the segment before the marker, trimmed at both ends of 、, /, , and the
space character, split on 、 or ,, each name trimmed, empties dropped, with
[無] as the fallback. -/
theorem C6_amended (raw : Str)
    (h : containsSub (cleanOf raw) timeUndecided = true) :
    (parse_course_string raw).teachers = specC6TeachersAmended raw ∧
      (parse_course_string raw).dayOfWeek = none ∧
      (parse_course_string raw).startPeriod = none ∧
      (parse_course_string raw).endPeriod = none := by
  rw [parse_eq_tu h]
  exact ⟨rfl, rfl, rfl, rfl⟩

/-- C6 applied at the bare marker 時間未定: teachers fall back to [無]. -/
theorem C6_witness :
    containsSub (cleanOf (['時', '間', '未', '定'] : Str)) timeUndecided = true ∧
      (parse_course_string ['時', '間', '未', '定']).teachers =
        specC6TeachersAmended ['時', '間', '未', '定'] ∧
      specC6TeachersAmended ['時', '間', '未', '定'] = [noneSentinel] :=
  ⟨by decide, (C6_amended _ (by decide)).1, by decide⟩

/-- C2 fails as stated: the reversed range 5-3 in x(一)5-3(A) produces
startPeriod = 5 and endPeriod = 3, so endPeriod < startPeriod. -/
theorem C2_counterexample :
    ¬ (∀ sp, (parse_course_string ['x', '(', '一', ')', '5', '-', '3', '(', 'A', ')']
        ).startPeriod = some sp →
        ∃ ep, (parse_course_string ['x', '(', '一', ')', '5', '-', '3', '(', 'A', ')']
          ).endPeriod = some ep ∧ sp ≤ ep) := by
  intro h
  rcases h 5 (by decide) with ⟨ep, hep, hle⟩
  have h3 : (parse_course_string ['x', '(', '一', ')', '5', '-', '3', '(', 'A', ')']
      ).endPeriod = some 3 := by decide
  rw [h3] at hep
  cases hep
  exact absurd hle (by decide)

/-- C2 (amended): endPeriod is present whenever startPeriod is present, and
endPeriod ≥ startPeriod provided every explicit dash range recognized in the
cell is non-decreasing. -/
theorem C2_amended (raw : Str)
    (hr : ∀ m ∈ cellMatches raw, ∀ e, m.endPOpt = some e → m.startP ≤ e) :
    ∀ sp, (parse_course_string raw).startPeriod = some sp →
      ∃ ep, (parse_course_string raw).endPeriod = some ep ∧ sp ≤ ep := by
  intro sp hsp
  by_cases htu : containsSub (cleanOf raw) timeUndecided = true
  · rw [parse_eq_tu htu] at hsp
    cases hsp
  · have hf : containsSub (cleanOf raw) timeUndecided = false := Bool.eq_false_iff.2 htu
    rw [parse_minStart_char hf] at hsp
    rcases hcm : cellMatches raw with _ | ⟨m0, mt⟩
    · rw [hcm] at hsp
      simp at hsp
    · have hene : ((cellMatches raw).map matchEnd).foldl optMax none ≠ none := by
        rw [Ne, foldl_optMax_none_iff, hcm]
        simp
      rcases Option.ne_none_iff_exists'.1 hene with ⟨ep, hep⟩
      refine ⟨ep, by rw [parse_maxEnd_char hf, hep], ?_⟩
      have hm0 : m0 ∈ cellMatches raw := by
        rw [hcm]
        exact List.mem_cons_self _ _
      have h1 : sp ≤ m0.startP :=
        (foldl_optMin_le hsp).1 m0.startP (List.mem_map.2 ⟨m0, hm0, rfl⟩)
      have h2 : matchEnd m0 ≤ ep :=
        (foldl_optMax_ge hep).1 (matchEnd m0) (List.mem_map.2 ⟨m0, hm0, rfl⟩)
      have h3 : m0.startP ≤ matchEnd m0 := by
        unfold matchEnd
        rcases he : m0.endPOpt with _ | e
        · exact le_refl _
        · exact hr m0 hm0 e he
      omega

/-- C2 applied at a concrete well-formed range a(一)3-4(B). -/
theorem C2_witness :
    (∀ m ∈ cellMatches (['a', '(', '一', ')', '3', '-', '4', '(', 'B', ')'] : Str),
        ∀ e, m.endPOpt = some e → m.startP ≤ e) ∧
      (∃ ep, (parse_course_string ['a', '(', '一', ')', '3', '-', '4', '(', 'B', ')']
        ).endPeriod = some ep ∧ 3 ≤ ep) :=
  ⟨by decide, C2_amended _ (by decide) 3 (by decide)⟩

/-- C1 fails as stated: the non-empty raw string "(單週)" (which is also
non-empty after trimming) consists of a week marker only; the marker is
removed before teacher extraction, and the parser returns an empty teachers
list. -/
theorem C1_counterexample :
    oddMarker ≠ [] ∧ trim oddMarker = oddMarker ∧
      (parse_course_string oddMarker).teachers = [] :=
  ⟨by decide, by decide, by decide⟩

theorem flatMap_eq_nil_of_forall {ls : List Str}
    (h : ∀ l ∈ ls, lineMatches l = []) : ls.flatMap lineMatches = [] := by
  induction ls with
  | nil => rfl
  | cons x t ih =>
    rw [List.flatMap_cons, h x (List.mem_cons_self _ _),
      ih (fun l hl => h l (List.mem_cons_of_mem _ hl))]
    rfl

set_option maxHeartbeats 1000000 in
/-- C1 (amended): whenever the cleaned string (after trimming and
week-marker removal) is non-empty, the returned teachers list is non-empty:
unresolved names fall back to 無 in the time-undecided branch or to the raw
string itself as a last resort. -/
theorem C1_amended (raw : Str) (h : cleanOf raw ≠ []) :
    (parse_course_string raw).teachers ≠ [] := by
  by_cases htu : containsSub (cleanOf raw) timeUndecided = true
  · rw [parse_eq_tu htu]
    show tuTeachers (cleanOf raw) ≠ []
    unfold tuTeachers
    split
    · simp
    · next hne =>
      intro he
      exact hne (by rw [he]; rfl)
  · have hf := Bool.eq_false_iff.2 htu
    rw [parse_eq_timed hf]
    unfold processTimed
    split
    · simp
    · next hcond =>
      by_cases hT : (accFold (cleanOf raw)).teachers = []
      · exfalso
        apply hcond
        refine ⟨List.isEmpty_iff.2 hT, ?_, ?_⟩
        · rw [List.isEmpty_iff, accFold_locations]
          have hiff := (accFold_teachers_nil_iff (cleanOf raw)).1 hT
          have hall : ∀ l ∈ linesP isNl (cleanOf raw), lineMatches l = [] :=
            fun l hl => lineMatches_none (hiff l hl)
          rw [flatMap_eq_nil_of_forall hall]
          rfl
        · simpa [List.isEmpty_iff] using h
      · show dedupFirst (accFold (cleanOf raw)).teachers ≠ []
        exact dedupFirst_ne_nil hT

/-- C1 applied at the plain input ab. -/
theorem C1_witness :
    cleanOf (['a', 'b'] : Str) ≠ [] ∧
      (parse_course_string ['a', 'b']).teachers ≠ [] :=
  ⟨by decide, C1_amended _ (by decide)⟩

/-- The marker text removed for a detected week pattern. -/
def weekMarkerOf : WeekPatternEnum → Option Str
  | WeekPatternEnum.ODD_WEEKS => some oddMarker
  | WeekPatternEnum.EVEN_WEEKS => some evenMarker
  | WeekPatternEnum.EVERY_WEEK => none

/-- C3 fails as stated: in the string (雙週)(單週)x the even-week marker
occurs first in string order, yet the parser returns ODD_WEEKS because the
odd-week test runs first. -/
theorem C3_counterexample :
    (evenMarker ++ oddMarker ++ ['x'] : Str) =
        evenMarker ++ (oddMarker ++ ['x']) ∧
      (parse_course_string (evenMarker ++ oddMarker ++ ['x'])).weekPattern =
        WeekPatternEnum.ODD_WEEKS ∧
      WeekPatternEnum.ODD_WEEKS ≠ WeekPatternEnum.EVEN_WEEKS :=
  ⟨by simp, by decide, by decide⟩

/-- C3 (amended): week-pattern detection is global and one-shot, with the
odd-week marker tested first: ODD_WEEKS when (單週) occurs anywhere,
otherwise EVEN_WEEKS when (雙週) occurs, otherwise EVERY_WEEK — when both
markers appear the odd marker wins regardless of position — and the
occurrences of the detected marker are removed from the cleaned string used
by all further extraction. -/
theorem C3_amended (raw : Str) :
    ((parse_course_string raw).weekPattern =
      (if containsSub (trim raw) oddMarker = true then WeekPatternEnum.ODD_WEEKS
       else if containsSub (trim raw) evenMarker = true then WeekPatternEnum.EVEN_WEEKS
       else WeekPatternEnum.EVERY_WEEK)) ∧
    (∀ mk, weekMarkerOf ((parse_course_string raw).weekPattern) = some mk →
      containsSub (cleanOf raw) mk = false) := by
  constructor
  · rw [parse_weekPattern, weekOf_eq]
  · intro mk hmk
    rw [parse_weekPattern, weekOf_eq] at hmk
    rw [cleanOf_eq]
    by_cases h1 : containsSub (trim raw) oddMarker = true
    · rw [if_pos h1] at hmk ⊢
      simp only [weekMarkerOf] at hmk
      cases hmk
      rw [containsSub_trim_iff (by decide)
        (by intro c hc; cases hc; decide) (by intro c hc; cases hc; decide)]
      exact replaceAll_not_contains (by decide) (by decide)
    · rw [if_neg h1] at hmk ⊢
      by_cases h2 : containsSub (trim raw) evenMarker = true
      · rw [if_pos h2] at hmk ⊢
        simp only [weekMarkerOf] at hmk
        cases hmk
        rw [containsSub_trim_iff (by decide)
          (by intro c hc; cases hc; decide) (by intro c hc; cases hc; decide)]
        exact replaceAll_not_contains (by decide) (by decide)
      · rw [if_neg h2] at hmk
        simp [weekMarkerOf] at hmk

/-- C3 applied at a concrete marker-bearing input. -/
theorem C3_witness :
    weekMarkerOf ((parse_course_string (oddMarker ++ ['a'])).weekPattern) =
        some oddMarker ∧
      containsSub (cleanOf (oddMarker ++ ['a'])) oddMarker = false :=
  ⟨by decide, (C3_amended (oddMarker ++ ['a'])).2 oddMarker (by decide)⟩

/-- C10: every returned teacher name, in every branch, is non-empty and has
no leading or trailing whitespace (it is a fixpoint of trimming). -/
theorem C10_teachers_wf :
    ∀ (raw : Str), ∀ t ∈ (parse_course_string raw).teachers,
      t ≠ [] ∧ trim t = t := by
  intro raw t ht
  by_cases htu : containsSub (cleanOf raw) timeUndecided = true
  · rw [parse_eq_tu htu] at ht
    have ht2 : t ∈ tuTeachers (cleanOf raw) := ht
    unfold tuTeachers at ht2
    split at ht2
    · rcases List.mem_singleton.1 ht2 with rfl
      exact ⟨by decide, by decide⟩
    · unfold tuNames at ht2
      rw [List.mem_filter] at ht2
      rcases List.mem_map.1 ht2.1 with ⟨frag, _, rfl⟩
      refine ⟨?_, trim_idem _⟩
      have h2 := ht2.2
      simp only [List.isEmpty_iff, decide_eq_true_eq] at h2
      exact h2
  · have hf := Bool.eq_false_iff.2 htu
    rw [parse_eq_timed hf] at ht
    have ht2 : t ∈ (processTimed (weekOf raw) (cleanOf raw)).teachers := ht
    unfold processTimed at ht2
    split at ht2
    · next hcond =>
      rcases List.mem_singleton.1 ht2 with rfl
      refine ⟨?_, cleanOf_trimmed raw⟩
      simp only [List.isEmpty_iff] at hcond
      exact hcond.2.2
    · refine foldl_processLine_teacher_prop (linesP isNl (cleanOf raw)) initAcc
        ?_ ?_ t (dedupFirst_subset ht2)
      · intro l hl
        rcases linesP_mem hl with ⟨⟨chunk, rfl⟩, hne⟩
        exact ⟨hne, trim_idem _⟩
      · intro x hx
        cases hx

/-- C10 applied at a concrete timed entry. -/
theorem C10_witness :
    (['王'] : Str) ∈
        (parse_course_string ['王', '(', '一', ')', '3', '(', 'A', ')']).teachers ∧
      ((['王'] : Str) ≠ [] ∧ trim ['王'] = ['王']) :=
  ⟨by decide, C10_teachers_wf ['王', '(', '一', ')', '3', '(', 'A', ')'] ['王'] (by decide)⟩

set_option maxHeartbeats 1000000 in
/-- C7: in the timed-entry branch with at least one day/period/room match,
startPeriod is the global minimum of match starts, endPeriod the global
maximum of match ends (a match without a dash range counts end = start),
dayOfWeek is the first match's day (later matches never override it), and
location is the sorted deduplicated set of the trimmed classrooms. -/
theorem C7_aggregation (raw : Str)
    (htu : containsSub (cleanOf raw) timeUndecided = false)
    (hne : cellMatches raw ≠ []) :
    (∃ sp, (parse_course_string raw).startPeriod = some sp ∧
        sp ∈ (cellMatches raw).map (fun m => m.startP) ∧
        ∀ x ∈ (cellMatches raw).map (fun m => m.startP), sp ≤ x) ∧
    (∃ ep, (parse_course_string raw).endPeriod = some ep ∧
        ep ∈ (cellMatches raw).map matchEnd ∧
        ∀ x ∈ (cellMatches raw).map matchEnd, x ≤ ep) ∧
    (∀ m0 mt, cellMatches raw = m0 :: mt →
        (parse_course_string raw).dayOfWeek = dayMap m0.day) ∧
    (∃ L, (parse_course_string raw).location = joinSep sepDot L ∧
        List.Sorted LexLe L ∧ L.Nodup ∧
        ∀ x, (x ∈ L ↔ x ∈ (cellMatches raw).map (fun m => trim m.loc))) := by
  refine ⟨?_, ?_, ?_, ?_⟩
  · have hchar := parse_minStart_char htu
    have hnn : ((cellMatches raw).map (fun m => m.startP)).foldl optMin none ≠ none := by
      rw [Ne, foldl_optMin_none_iff]
      rintro ⟨_, hmap⟩
      exact hne (List.map_eq_nil_iff.1 hmap)
    rcases Option.ne_none_iff_exists'.1 hnn with ⟨sp, hsp⟩
    refine ⟨sp, by rw [hchar, hsp], ?_, (foldl_optMin_le hsp).1⟩
    rcases foldl_optMin_mem hsp with hm | hm
    · exact hm
    · exact absurd hm (by simp)
  · have hchar := parse_maxEnd_char htu
    have hnn : ((cellMatches raw).map matchEnd).foldl optMax none ≠ none := by
      rw [Ne, foldl_optMax_none_iff]
      rintro ⟨_, hmap⟩
      exact hne (List.map_eq_nil_iff.1 hmap)
    rcases Option.ne_none_iff_exists'.1 hnn with ⟨ep, hep⟩
    refine ⟨ep, by rw [hchar, hep], ?_, (foldl_optMax_ge hep).1⟩
    rcases foldl_optMax_mem hep with hm | hm
    · exact hm
    · exact absurd hm (by simp)
  · intro m0 mt hcm
    have hglyph := @cellMatches_glyph raw m0
      (by rw [hcm]; exact List.mem_cons_self _ _)
    rw [parse_day_char htu, hcm]
    simp only [List.map_cons]
    exact foldl_optDay_glyph_head hglyph
  · refine ⟨sortDedup ((cellMatches raw).map (fun m => trim m.loc)),
      parse_location_char htu, ?_, ?_, ?_⟩
    · exact List.sorted_insertionSort LexLe _
    · have hp := List.perm_insertionSort LexLe
        ((cellMatches raw).map (fun m => trim m.loc)).dedup
      exact hp.nodup_iff.2 (List.nodup_dedup _)
    · intro x
      show x ∈ sortDedup _ ↔ _
      unfold sortDedup
      rw [(List.perm_insertionSort LexLe _).mem_iff, List.mem_dedup]

/-- C7 applied at a concrete one-entry cell. -/
theorem C7_witness :
    containsSub (cleanOf (['a', '(', '一', ')', '3', '-', '4', '(', 'B', ')'] : Str))
        timeUndecided = false ∧
      cellMatches ['a', '(', '一', ')', '3', '-', '4', '(', 'B', ')'] ≠ [] ∧
      (parse_course_string ['a', '(', '一', ')', '3', '-', '4', '(', 'B', ')']
        ).dayOfWeek = dayMap '一' :=
  ⟨by decide, by decide,
    (C7_aggregation ['a', '(', '一', ')', '3', '-', '4', '(', 'B', ')'] (by decide)
      (by decide)).2.2.1 ⟨'一', 3, some 4, ['B']⟩ [] (by decide)⟩

/-! ## Permutation invariance of the classroom set (claim C4) -/

theorem tu_free_clean {ls : List Str} (hnl : ∀ l ∈ ls, '\n' ∉ l)
    (htu : ∀ l ∈ ls, containsSub l timeUndecided = false) :
    containsSub (cleanOf (joinNl ls)) timeUndecided = false := by
  rw [Bool.eq_false_iff]
  intro hc
  have hinf := containsSub_infix_iff.1 hc
  have hraw : timeUndecided <:+: joinNl ls := by
    rw [cleanOf_eq] at hinf
    by_cases h1 : containsSub (trim (joinNl ls)) oddMarker = true
    · rw [if_pos h1] at hinf
      have h2 := hinf.trans (trim_infix_self _)
      have h3 := replaceAll_infix (by decide) h2
      exact h3.trans (trim_infix_self _)
    · rw [if_neg h1] at hinf
      by_cases h2 : containsSub (trim (joinNl ls)) evenMarker = true
      · rw [if_pos h2] at hinf
        have h3 := hinf.trans (trim_infix_self _)
        have h4 := replaceAll_infix (by decide) h3
        exact h4.trans (trim_infix_self _)
      · rw [if_neg h2] at hinf
        exact hinf.trans (trim_infix_self _)
  rcases (infix_joinNl_iff (by decide) (by decide) hnl).1 hraw with ⟨l, hl, hinf2⟩
  rw [← containsSub_infix_iff] at hinf2
  rw [htu l hl] at hinf2
  exact absurd hinf2 (by simp)

theorem detect_agree {pat : Str} (hpe : pat ≠ []) (hnp : '\n' ∉ pat)
    (hh : ∀ c, pat.head? = some c → isSpace c = false)
    (hl2 : ∀ c, pat.getLast? = some c → isSpace c = false)
    {ls ls' : List Str} (hperm : List.Perm ls ls')
    (hnl : ∀ l ∈ ls, '\n' ∉ l) (hnl' : ∀ l ∈ ls', '\n' ∉ l) :
    containsSub (trim (joinNl ls)) pat = containsSub (trim (joinNl ls')) pat := by
  rw [containsSub_trim_iff hpe hh hl2, containsSub_trim_iff hpe hh hl2]
  have e1 : containsSub (joinNl ls) pat = true ↔ ∃ l ∈ ls, pat <:+: l := by
    rw [containsSub_infix_iff]
    exact infix_joinNl_iff hpe hnp hnl
  have e2 : containsSub (joinNl ls') pat = true ↔ ∃ l ∈ ls', pat <:+: l := by
    rw [containsSub_infix_iff]
    exact infix_joinNl_iff hpe hnp hnl'
  have e3 : (∃ l ∈ ls, pat <:+: l) ↔ ∃ l ∈ ls', pat <:+: l := by
    constructor <;> rintro ⟨l, hl, h⟩
    · exact ⟨l, hperm.mem_iff.1 hl, h⟩
    · exact ⟨l, hperm.mem_iff.2 hl, h⟩
  rcases hA : containsSub (joinNl ls) pat with _ | _
  · rcases hB : containsSub (joinNl ls') pat with _ | _
    · rfl
    · exfalso
      have h4 := e1.2 (e3.2 (e2.1 hB))
      rw [hA] at h4
      exact absurd h4 (by simp)
  · rcases hB : containsSub (joinNl ls') pat with _ | _
    · exfalso
      have h4 := e2.2 (e3.1 (e1.1 hA))
      rw [hB] at h4
      exact absurd h4 (by simp)
    · rfl

theorem cellMatches_perm {ls ls' : List Str} (hperm : List.Perm ls ls')
    (hnl : ∀ l ∈ ls, '\n' ∉ l) (hnl' : ∀ l ∈ ls', '\n' ∉ l) :
    List.Perm (cellMatches (joinNl ls)) (cellMatches (joinNl ls')) := by
  unfold cellMatches
  have hodd : containsSub (trim (joinNl ls)) oddMarker =
      containsSub (trim (joinNl ls')) oddMarker :=
    detect_agree (by decide) (by decide) (by intro c hc; cases hc; decide)
      (by intro c hc; cases hc; decide) hperm hnl hnl'
  have heven : containsSub (trim (joinNl ls)) evenMarker =
      containsSub (trim (joinNl ls')) evenMarker :=
    detect_agree (by decide) (by decide) (by intro c hc; cases hc; decide)
      (by intro c hc; cases hc; decide) hperm hnl hnl'
  rw [cleanOf_eq, cleanOf_eq, ← hodd, ← heven]
  by_cases h1 : containsSub (trim (joinNl ls)) oddMarker = true
  · simp only [if_pos h1]
    rw [linesP_clean_canonical_repl (by decide) (by decide) (by decide) hnl,
        linesP_clean_canonical_repl (by decide) (by decide) (by decide) hnl']
    exact ((hperm.map _).filter _).flatMap_right _
  · simp only [if_neg h1]
    by_cases h2 : containsSub (trim (joinNl ls)) evenMarker = true
    · simp only [if_pos h2]
      rw [linesP_clean_canonical_repl (by decide) (by decide) (by decide) hnl,
          linesP_clean_canonical_repl (by decide) (by decide) (by decide) hnl']
      exact ((hperm.map _).filter _).flatMap_right _
    · simp only [if_neg h2]
      rw [linesP_clean_canonical_id hnl, linesP_clean_canonical_id hnl']
      exact ((hperm.map _).filter _).flatMap_right _

/-- C4 fails as stated: with lines 時間未定(A) and (B) the location is A,
and after swapping the two lines it is B — in the time-undecided branch the
location is the first parenthesized group of the whole string, which is
order-dependent. -/
theorem C4_counterexample :
    List.Perm [(['時', '間', '未', '定', '(', 'A', ')'] : Str), ['(', 'B', ')']]
        [['(', 'B', ')'], ['時', '間', '未', '定', '(', 'A', ')']] ∧
      (parse_course_string
          (joinNl [['時', '間', '未', '定', '(', 'A', ')'], ['(', 'B', ')']])).location =
        ['A'] ∧
      (parse_course_string
          (joinNl [['(', 'B', ')'], ['時', '間', '未', '定', '(', 'A', ')']])).location =
        ['B'] ∧
      (['A'] : Str) ≠ ['B'] :=
  ⟨by decide, by decide, by decide, by decide⟩

/-- C4 (amended): for inputs whose lines do not contain 時間未定 (the
timed-entry branch), permuting the order of the lines leaves the returned
location unchanged, even though teachers order and the first-seen day may
change. -/
theorem C4_amended (ls ls' : List Str) (hperm : List.Perm ls ls')
    (hnl : ∀ l ∈ ls, '\n' ∉ l)
    (htu : ∀ l ∈ ls, containsSub l timeUndecided = false) :
    (parse_course_string (joinNl ls)).location =
      (parse_course_string (joinNl ls')).location := by
  have hnl' : ∀ l ∈ ls', '\n' ∉ l := fun l hl => hnl l (hperm.mem_iff.2 hl)
  have htu' : ∀ l ∈ ls', containsSub l timeUndecided = false :=
    fun l hl => htu l (hperm.mem_iff.2 hl)
  have hTU := tu_free_clean hnl htu
  have hTU' := tu_free_clean hnl' htu'
  rw [parse_location_char hTU, parse_location_char hTU']
  rw [sortDedup_perm_eq ((cellMatches_perm hperm hnl hnl').map _)]

/-- C4 applied at a concrete two-line swap. -/
theorem C4_witness :
    List.Perm [(['a', '(', '一', ')', '3', '(', 'A', ')'] : Str),
        ['b', '(', '二', ')', '4', '(', 'B', ')']]
      [['b', '(', '二', ')', '4', '(', 'B', ')'],
        ['a', '(', '一', ')', '3', '(', 'A', ')']] ∧
      (parse_course_string (joinNl [['a', '(', '一', ')', '3', '(', 'A', ')'],
          ['b', '(', '二', ')', '4', '(', 'B', ')']])).location =
        (parse_course_string (joinNl [['b', '(', '二', ')', '4', '(', 'B', ')'],
          ['a', '(', '一', ')', '3', '(', 'A', ')']])).location :=
  ⟨by decide,
    C4_amended _ _ (by decide) (by decide) (by decide)⟩

end CourseCrawler
